import Mathlib

/-!
Priscilla: the context session manager of `llama_jni.cpp`.

A shallow embedding of `app/src/main/cpp/llama_jni.cpp`.

* The globals `ctx`, `n_past`, `g_n_keep`, `cached_token_str`, `batch` and the sampler
  become the fields of `Session`; every JNI entry point becomes a function on `Session`.
* `int` values are `Int`.  Signed overflow is undefined behaviour in C++ and the counters
  stay far below `2^31`, so sums of `int`s are not wrapped.  Where the source mixes `int`
  with the `uint32_t` returned by `llama_n_ctx` the usual arithmetic conversions are
  spelled out with `% 4294967296` (`toU32`), and the narrowing `const int n_ctx = ...`
  with `toI32`.  The C++ quotient `n_left / 4` truncates toward zero: `Int.tdiv`.
* A `char` of a `std::string` is its byte value `0 .. 255` as a `Nat`.  The tests
  `(ch & 0x80) == 0x00` etc. only look at the low eight bits of the promoted `int`, so they
  give the same answer for a signed and for an unsigned `char`.
* What the llama.cpp library answers (decode status, sampled token, text piece, restored
  state) is an argument of the entry point that asks for it.
* The tracked sequence `g_seq_id` is the constant `0`; backend memory is modelled as the
  list of the positions it holds for that sequence.
-/

namespace Priscilla

/-! ## Backend memory (llama.h) -/

/-- Modelled from the spec: `llama_memory_seq_rm(mem, g_seq_id, p0, p1)` of llama.h, which is
not part of the repository.  It removes the positions in `[p0, p1)`; `p0 < 0` stands for
`0` and `p1 < 0` for "to the end of the sequence". -/
def llama_memory_seq_rm (mem : List Int) (p0 p1 : Int) : List Int :=
  mem.filter (fun p => !(decide ((if p0 < 0 then 0 else p0) ≤ p) && (decide (p1 < 0) || decide (p < p1))))

/-- Modelled from the spec: `llama_memory_seq_add(mem, g_seq_id, p0, p1, delta)` of llama.h.
It adds `delta` to every position in `[p0, p1)` (same conventions for negative bounds); a
position that would become negative is dropped from the memory. -/
def llama_memory_seq_add (mem : List Int) (p0 p1 delta : Int) : List Int :=
  mem.filterMap (fun p =>
    if (if p0 < 0 then 0 else p0) ≤ p ∧ (p1 < 0 ∨ p < p1) then
      (if p + delta < 0 then none else some (p + delta))
    else some p)

/-- Modelled from the spec: `llama_memory_seq_pos_max(mem, g_seq_id)` of llama.h, the largest
position held for the sequence, `-1` when it holds none. -/
def llama_memory_seq_pos_max (mem : List Int) : Int :=
  mem.foldl max (-1)

/-! ## Session state -/

/-- One slot of the global `llama_batch`: `token[i]`, `pos[i]`, `n_seq_id[i]`, `logits[i]`
(`seq_id[i]` always points to `g_seq_id`). -/
structure BatchEntry where
  token : Int
  pos : Int
  n_seq_id : Int
  logits : Int
  deriving DecidableEq

/-- The global state of `llama_jni.cpp`.  `ctx` tells whether the context pointer is
non-null, `n_ctx` is `llama_n_ctx(ctx)`, `mem` the positions the context memory holds for
`g_seq_id`, `smpl` the tokens accepted by the sampler since its last reset, `batch` the first
`batch.n_tokens` slots of the global batch. -/
structure Session where
  ctx : Bool
  n_ctx : Nat
  mem : List Int
  smpl : List Int
  batch : List BatchEntry
  n_past : Int
  g_n_keep : Int
  cached_token_str : List Nat
  deriving DecidableEq

/-- State right after a successful `loadModel`: `free_model_resources` has zeroed the
conversation state and a new context of `n_ctx` positions exists. -/
def fresh (n_ctx : Nat) : Session :=
  { ctx := true, n_ctx := n_ctx, mem := [], smpl := [], batch := [],
    n_past := 0, g_n_keep := 0, cached_token_str := [] }

/-- Conversion of an `int` to `uint32_t` (usual arithmetic conversions). -/
def toU32 (x : Int) : Int := x % 4294967296

/-- Narrowing of a `uint32_t` to `int`. -/
def toI32 (x : Int) : Int := (x + 2147483648) % 4294967296 - 2147483648

/-- Modelled from the spec: the effect of `llama_decode(ctx, batch)` of llama.h on the
memory.  On status `0` the batch positions enter the memory; on a non-zero status the
memory is as before the call. -/
def llama_decode (mem : List Int) (batch : List BatchEntry) (decode_ok : Bool) : List Int :=
  if decode_ok then mem ++ batch.map BatchEntry.pos else mem

/-! ## startInference -/

/-- Lines 205-214: the loop that copies the prompt into the batch, slot `i` at position
`n_past + i`, `logits` cleared. -/
def fillBatch (n_past : Int) (new_tokens : List Int) : List BatchEntry :=
  (List.range new_tokens.length).map (fun i =>
    { token := new_tokens.getD i 0, pos := n_past + (i : Int), n_seq_id := 1, logits := 0 })

/-- Line 215: `batch.logits[batch.n_tokens - 1] = 1`.  With an empty batch the index is
`-1`, outside the entries of the batch, which are left as they are. -/
def markLast (batch : List BatchEntry) : List BatchEntry :=
  match batch.length with
  | 0 => batch
  | k + 1 => batch.modify (fun e => { e with logits := 1 }) k

/-- Lines 184-186: `if (n_past == 0) { g_n_keep = n_tokens; }`. -/
def initKeep (s : Session) (n_tokens : Int) : Session :=
  if s.n_past = 0 then { s with g_n_keep := n_tokens } else s

/-- Lines 189-198: the pruning block of `startInference`, entered when
`n_past + n_tokens > n_ctx - 128` (signed comparison, `const int n_ctx`). -/
def prune (s : Session) (n_tokens : Int) : Session :=
  if s.n_past + n_tokens > toI32 s.n_ctx - 128 then
    let n_left := s.n_past - s.g_n_keep
    let n_to_remove := Int.tdiv n_left 4
    let mem1 := llama_memory_seq_rm s.mem s.g_n_keep (s.g_n_keep + n_to_remove)
    let mem2 := llama_memory_seq_add mem1 (s.g_n_keep + n_to_remove) (-1) (-n_to_remove)
    { s with mem := mem2, n_past := s.n_past - n_to_remove }
  else s

/-- Embedding of `Java_com_example_priscilla_LlamaBridge_startInference` from line 184 on
(the tokenizer has returned `new_tokens`, `n_tokens = new_tokens.size() >= 0`), together with
the null check of line 170.  `decode_ok` is `llama_decode(ctx, batch) == 0`.  Returns the
`jboolean` and the new state. -/
def startInference (s : Session) (new_tokens : List Int) (decode_ok : Bool) : Bool × Session :=
  if s.ctx = false then (false, s) else
  let n_tokens : Int := new_tokens.length
  let s1 := initKeep s n_tokens
  let s2 := prune s1 n_tokens
  if toU32 (s2.n_past + n_tokens) > toU32 ((s2.n_ctx : Int) - 4) then (false, s2) else
  let s3 := { s2 with batch := markLast (fillBatch s2.n_past new_tokens) }
  if decode_ok = false then (false, s3) else
  (true, { s3 with mem := llama_decode s3.mem s3.batch true,
                   n_past := s3.n_past + (s3.batch.length : Int),
                   cached_token_str := [] })

/-! ## continueInference -/

/-- Lines 275-280: the byte count announced by a leading byte, `none` for the final
`else { i++; continue; }`. -/
def leadLen (ch : Nat) : Option Nat :=
  if ch &&& 0x80 = 0x00 then some 1
  else if ch &&& 0xE0 = 0xC0 then some 2
  else if ch &&& 0xF0 = 0xE0 then some 3
  else if ch &&& 0xF8 = 0xF0 then some 4
  else none

/-- Lines 273-284: the `while (i < cached_token_str.length())` loop, with loop variables `i`
and `utf8_char`.  Every iteration that does not leave the loop increases `i`, so
`str.length` iterations are always enough (`scanLoop_fuel`). -/
def scanLoop (str : List Nat) : Nat → Nat → List Nat → Nat × List Nat
  | 0, i, utf8_char => (i, utf8_char)
  | fuel + 1, i, utf8_char =>
    if i < str.length then
      match leadLen (str.getD i 0) with
      | none => scanLoop str fuel (i + 1) utf8_char
      | some len =>
        if i + len > str.length then (i, utf8_char)
        else scanLoop str fuel (i + len) (utf8_char ++ (str.drop i).take len)
    else (i, utf8_char)

/-- The loop run from `i = 0` with an empty `utf8_char`. -/
def scan (str : List Nat) : Nat × List Nat :=
  scanLoop str str.length 0 []

/-- The bytes `NewStringUTF` reads from `std::string(...).c_str()`: everything before the
first zero byte. -/
def c_str (bytes : List Nat) : List Nat :=
  bytes.takeWhile (fun b => b != 0)

/-- Lines 270-289: append the piece to `cached_token_str`, scan, erase what was consumed if
something was collected.  Returns the bytes of the returned string and the new
`cached_token_str`. -/
def emit (cached_token_str piece : List Nat) : List Nat × List Nat :=
  let str := cached_token_str ++ piece
  let r := scan str
  if r.2 ≠ [] then (c_str r.2, str.drop r.1) else ([], str)

/-- Embedding of `Java_com_example_priscilla_LlamaBridge_continueInference`.
`new_token_id` is what `llama_sampler_sample` returns, `is_eog` what `llama_vocab_is_eog`
says of it, `decode_ok` is `llama_decode(ctx, batch) == 0`, `piece` the bytes written by
`llama_token_to_piece` (`none` when it returns a negative count).  The result is `none` for
a `nullptr` return, otherwise the bytes of the returned string. -/
def continueInference (s : Session) (new_token_id : Int) (is_eog decode_ok : Bool)
    (piece : Option (List Nat)) : Option (List Nat) × Session :=
  if s.ctx = false then (none, s) else
  if toU32 s.n_past ≥ toU32 s.n_ctx then (none, s) else
  let s1 := { s with smpl := s.smpl ++ [new_token_id] }
  if is_eog then (none, s1) else
  let s2 := { s1 with batch := [{ token := new_token_id, pos := s1.n_past, n_seq_id := 1, logits := 1 }] }
  if decode_ok = false then (none, s2) else
  let s3 := { s2 with mem := llama_decode s2.mem s2.batch true, n_past := s2.n_past + 1 }
  match piece with
  | none => (none, s3)
  | some bytes =>
    let r := emit s3.cached_token_str bytes
    (some r.1, { s3 with cached_token_str := r.2 })

/-! ## finalizeTurn, saveKVCache, loadKVCache, resetContext -/

/-- Embedding of `Java_com_example_priscilla_LlamaBridge_finalizeTurn`; `eos_token` is
`llama_vocab_eos(vocab)`. -/
def finalizeTurn (s : Session) (eos_token : Int) (decode_ok : Bool) : Session :=
  if s.ctx = false then s else
  let s1 := { s with batch := [{ token := eos_token, pos := s.n_past, n_seq_id := 1, logits := 0 }] }
  { s1 with mem := llama_decode s1.mem s1.batch decode_ok, n_past := s1.n_past + 1 }

/-- Embedding of `Java_com_example_priscilla_LlamaBridge_saveKVCache`.  The state blob
obtained from `llama_state_get_data` is represented by the memory content it captures;
`path_ok` and `file_ok` tell whether the path string and the output file could be opened.
Returns the `jboolean` and what was written to the file. -/
def saveKVCache (s : Session) (path_ok file_ok : Bool) : Bool × Option (List Int) :=
  if s.ctx = false then (false, none) else
  if path_ok = false then (false, none) else
  if file_ok = false then (false, none) else
  (true, some s.mem)

/-- Embedding of `Java_com_example_priscilla_LlamaBridge_loadKVCache`.  `file` is the size
of the buffer read from the file (`none` when the path is null or the file cannot be opened
or read); `bytes_read` is what `llama_state_set_data` returns and `restored` the memory
content it leaves in the context. -/
def loadKVCache (s : Session) (file : Option Nat) (bytes_read : Nat) (restored : List Int) :
    Bool × Session :=
  if s.ctx = false then (false, s) else
  match file with
  | none => (false, s)
  | some buffer_size =>
    let s1 := { s with mem := restored }
    if bytes_read ≠ buffer_size then (false, s1) else
    let max_pos := llama_memory_seq_pos_max s1.mem
    let n_past := if max_pos = -1 then 0 else max_pos + 1
    (true, { s1 with n_past := n_past, g_n_keep := n_past })

/-- Embedding of `Java_com_example_priscilla_LlamaBridge_resetContext`; `memory_ok` tells
whether `llama_get_memory(ctx)` is non-null. -/
def resetContext (s : Session) (memory_ok : Bool) : Session :=
  if s.ctx = false then s else
  if s.g_n_keep = 0 then s else
  if memory_ok = false then s else
  { s with mem := llama_memory_seq_rm s.mem s.g_n_keep (-1), n_past := s.g_n_keep, smpl := [] }

/-! ## Call sequences -/

/-- One call of an entry point, with the answers of the library it will receive. -/
inductive Op where
  | submit_prompt (new_tokens : List Int) (decode_ok : Bool)
  | generate_next (new_token_id : Int) (is_eog decode_ok : Bool) (piece : Option (List Nat))
  | finalize_turn (eos_token : Int) (decode_ok : Bool)
  | soft_reset (memory_ok : Bool)
  | load (file : Option Nat) (bytes_read : Nat) (restored : List Int)
  deriving DecidableEq

/-- State after one call. -/
def step (s : Session) : Op → Session
  | .submit_prompt new_tokens decode_ok => (startInference s new_tokens decode_ok).2
  | .generate_next t e d p => (continueInference s t e d p).2
  | .finalize_turn t d => finalizeTurn s t d
  | .soft_reset m => resetContext s m
  | .load f b r => (loadKVCache s f b r).2

/-- State after a sequence of calls. -/
def run (s : Session) (ops : List Op) : Session :=
  ops.foldl step s

/-! ## Feeding the streaming decoder, and UTF-8 -/

/-- Feed the fragments one after the other to lines 270-289, starting with
`cached_token_str = cached`.  Returns the concatenation of the returned strings and the
final `cached_token_str`. -/
def feedAll (cached : List Nat) : List (List Nat) → List Nat × List Nat
  | [] => ([], cached)
  | piece :: rest =>
    let r := emit cached piece
    let r2 := feedAll r.2 rest
    (r.1 ++ r2.1, r2.2)

/-- Well-formedness of UTF-8 after the table of RFC 3629, section 4, read one byte at a
time: `need` continuation bytes are still expected and the next one must lie in
`[lo, hi]`.  The ranges of the second byte exclude overlong forms, surrogates and code
points above U+10FFFF. -/
def validFrom : Nat → Nat → Nat → List Nat → Bool
  | 0, _, _, [] => true
  | _ + 1, _, _, [] => false
  | 0, _, _, b :: rest =>
    if b ≤ 0x7F then validFrom 0 0x80 0xBF rest
    else if 0xC2 ≤ b ∧ b ≤ 0xDF then validFrom 1 0x80 0xBF rest
    else if b = 0xE0 then validFrom 2 0xA0 0xBF rest
    else if b = 0xED then validFrom 2 0x80 0x9F rest
    else if 0xE1 ≤ b ∧ b ≤ 0xEF then validFrom 2 0x80 0xBF rest
    else if b = 0xF0 then validFrom 3 0x90 0xBF rest
    else if b = 0xF4 then validFrom 3 0x80 0x8F rest
    else if 0xF1 ≤ b ∧ b ≤ 0xF3 then validFrom 3 0x80 0xBF rest
    else false
  | need + 1, lo, hi, b :: rest =>
    if lo ≤ b ∧ b ≤ hi then validFrom need 0x80 0xBF rest else false

/-- Well-formed UTF-8 byte sequences (RFC 3629). -/
def validUTF8 (text : List Nat) : Bool :=
  validFrom 0 0x80 0xBF text

/-- Byte sequences made of whole characters as the scan of `continueInference` sees them:
a leading byte followed by as many bytes as it announces, whatever they are. -/
inductive Chars : List Nat → Prop where
  | nil : Chars []
  | cons (b : Nat) (t rest : List Nat) :
      leadLen b = some (t.length + 1) → Chars rest → Chars (b :: (t ++ rest))

/-- A buffer that holds nothing, or the first bytes of one character that is not yet
whole. -/
def Pend (p : List Nat) : Prop :=
  p = [] ∨ ∃ b t len, p = b :: t ∧ leadLen b = some len ∧ p.length < len

/-- The window invariant of the specification, on the counters of a session. -/
def WindowInv (s : Session) : Prop :=
  0 ≤ s.g_n_keep ∧ s.g_n_keep ≤ s.n_past ∧ s.n_past ≤ (s.n_ctx : Int)

instance (s : Session) : Decidable (WindowInv s) := by
  unfold WindowInv; infer_instance

/-- A window of 2048 positions holding an anchor of 50 tokens and 1880 later tokens. -/
def nearlyFull : Session :=
  { fresh 2048 with n_past := 1930, g_n_keep := 50, mem := (List.range 1930).map Int.ofNat }

/-- The strings returned when the fragments are fed one after the other to lines 270-289,
starting with `cached_token_str = cached`: one chunk per fragment, in order. -/
def chunkList (cached : List Nat) : List (List Nat) → List (List Nat)
  | [] => []
  | piece :: rest => (emit cached piece).1 :: chunkList (emit cached piece).2 rest

/-- A stretch of the buffer that the scan walks through from one character start to
another, and what it collects on the way: a byte that matches no leader pattern is skipped,
a leading byte is collected with the bytes it announces. -/
inductive Seg : List Nat → List Nat → Prop where
  | nil : Seg [] []
  | skip (b : Nat) (rest e : List Nat) : leadLen b = none → Seg rest e → Seg (b :: rest) e
  | char (b : Nat) (t rest e : List Nat) :
      leadLen b = some (t.length + 1) → Seg rest e → Seg (b :: (t ++ rest)) (b :: (t ++ e))

/-- `Kept input out`: `out` is `input` from which nothing was dropped but bytes that match
no leader pattern and stand where a character starts.  Whole characters are kept, a byte
without leader pattern at a character start is dropped (`skip`) or still there (`hold`), and
the unfinished character at the end is kept. -/
inductive Kept : List Nat → List Nat → Prop where
  | pend (p : List Nat) : Pend p → Kept p p
  | skip (b : Nat) (rest o : List Nat) : leadLen b = none → Kept rest o → Kept (b :: rest) o
  | hold (b : Nat) (rest o : List Nat) :
      leadLen b = none → Kept rest o → Kept (b :: rest) (b :: o)
  | char (b : Nat) (t rest o : List Nat) :
      leadLen b = some (t.length + 1) → Kept rest o → Kept (b :: (t ++ rest)) (b :: (t ++ o))

/-- Line 215: the index `batch.n_tokens - 1` at which `batch.logits` is written. -/
def lastLogitsIndex (batch : List BatchEntry) : Int :=
  (batch.length : Int) - 1

/-- A call other than `loadKVCache`. -/
def Op.notLoad : Op → Bool
  | .load _ _ _ => false
  | _ => true

/-- The first bytes of a multi-byte character that is not yet whole: a leading byte that
announces 2, 3 or 4 bytes, followed by fewer bytes than it announces. -/
def IncompleteChar (p : List Nat) : Prop :=
  ∃ b t len, p = b :: t ∧ leadLen b = some len ∧ 2 ≤ len ∧ len ≤ 4 ∧ p.length < len

/-- What the first byte of a well-formed character says about the rest (RFC 3629): how many
continuation bytes follow and the range of the first of them; `none` for a byte that cannot
start a character.  Same case distinction as `validFrom`. -/
def leadInfo (b : Nat) : Option (Nat × Nat × Nat) :=
  if b ≤ 0x7F then some (0, 0x80, 0xBF)
  else if 0xC2 ≤ b ∧ b ≤ 0xDF then some (1, 0x80, 0xBF)
  else if b = 0xE0 then some (2, 0xA0, 0xBF)
  else if b = 0xED then some (2, 0x80, 0x9F)
  else if 0xE1 ≤ b ∧ b ≤ 0xEF then some (2, 0x80, 0xBF)
  else if b = 0xF0 then some (3, 0x90, 0xBF)
  else if b = 0xF4 then some (3, 0x80, 0x8F)
  else if 0xF1 ≤ b ∧ b ≤ 0xF3 then some (3, 0x80, 0xBF)
  else none

/-- The positions `0, 1, ..., n - 1`, in this order. -/
def positions (n : Int) : List Int :=
  (List.range n.toNat).map Int.ofNat

/-- The counters mirror the memory: the anchor lies within the window and the memory holds
exactly the positions `0, ..., n_past - 1`. -/
def Mirror (s : Session) : Prop :=
  0 ≤ s.g_n_keep ∧ s.g_n_keep ≤ s.n_past ∧ s.mem = positions s.n_past

/-- A call made under the conditions of the mirror property: it is not `loadKVCache`, its
decode succeeds, `llama_get_memory` gives a handle, and a prompt submitted to an empty
window has at most `n_ctx - 128` tokens. -/
def quietStep (s : Session) : Op → Prop
  | .submit_prompt toks ok =>
      ok = true ∧ (s.n_past = 0 → (toks.length : Int) ≤ (s.n_ctx : Int) - 128)
  | .generate_next _ _ d _ => d = true
  | .finalize_turn _ d => d = true
  | .soft_reset m => m = true
  | .load _ _ _ => False

/-- A call sequence all of whose calls are made under the conditions of `quietStep`. -/
def quietRun (s : Session) : List Op → Prop
  | [] => True
  | op :: ops => quietStep s op ∧ quietRun (step s op) ops


/-! ## Counters of `startInference` -/

theorem tdiv_four (a : Int) :
    Int.tdiv a 4 = if 0 ≤ a then a / 4 else -((-a) / 4) := by
  split
  · next h => exact Int.tdiv_eq_ediv h (by norm_num)
  · next h =>
    have h1 : a = -(-a) := by omega
    have h2 : (0 : Int) ≤ -a := by omega
    rw [h1, Int.neg_tdiv, Int.tdiv_eq_ediv h2 (by norm_num)]
    simp

theorem initKeep_n_past (s : Session) (n : Int) : (initKeep s n).n_past = s.n_past := by
  unfold initKeep; split <;> rfl

theorem initKeep_n_ctx (s : Session) (n : Int) : (initKeep s n).n_ctx = s.n_ctx := by
  unfold initKeep; split <;> rfl

theorem initKeep_g_n_keep (s : Session) (n : Int) :
    (initKeep s n).g_n_keep = if s.n_past = 0 then n else s.g_n_keep := by
  unfold initKeep; split <;> rfl

theorem prune_g_n_keep (s : Session) (n : Int) : (prune s n).g_n_keep = s.g_n_keep := by
  unfold prune; split <;> rfl

theorem prune_n_ctx (s : Session) (n : Int) : (prune s n).n_ctx = s.n_ctx := by
  unfold prune; split <;> rfl

theorem prune_n_past (s : Session) (n : Int) :
    (prune s n).n_past =
      if s.n_past + n > toI32 s.n_ctx - 128 then s.n_past - Int.tdiv (s.n_past - s.g_n_keep) 4
      else s.n_past := by
  unfold prune; split <;> rfl

/-- The anchor after `startInference`, whatever its outcome. -/
theorem startInference_g_n_keep (s : Session) (toks : List Int) (ok : Bool) :
    (startInference s toks ok).2.g_n_keep =
      if s.ctx = true ∧ s.n_past = 0 then (toks.length : Int) else s.g_n_keep := by
  unfold startInference
  cases hc : s.ctx <;> simp [prune_g_n_keep, initKeep_g_n_keep]
  split_ifs <;> simp [prune_g_n_keep, initKeep_g_n_keep, *]

/-- A call that returns `JNI_FALSE` leaves `n_past` as the pruning block left it. -/
theorem startInference_fail_n_past (s : Session) (toks : List Int) (ok : Bool)
    (hc : s.ctx = true) (hf : (startInference s toks ok).1 = false) :
    (startInference s toks ok).2.n_past = (prune (initKeep s toks.length) toks.length).n_past := by
  unfold startInference at hf ⊢
  simp only [hc] at hf ⊢
  split_ifs at hf ⊢ <;> simp_all

/-- The size check of line 200 rejects the prompt. -/
theorem startInference_too_long (s : Session) (toks : List Int) (ok : Bool)
    (hc : s.ctx = true)
    (h : toU32 ((prune (initKeep s toks.length) toks.length).n_past + toks.length)
          > toU32 ((s.n_ctx : Int) - 4)) :
    startInference s toks ok = (false, prune (initKeep s toks.length) toks.length) := by
  unfold startInference
  simp [hc, prune_n_ctx, initKeep_n_ctx, h]


/-! ## The scan loop -/

theorem leadLen_pos (ch len : Nat) (h : leadLen ch = some len) : 1 ≤ len := by
  unfold leadLen at h
  split_ifs at h <;> simp at h <;> omega

theorem leadLen_le_four (ch len : Nat) (h : leadLen ch = some len) : len ≤ 4 := by
  unfold leadLen at h
  split_ifs at h <;> simp at h <;> omega

theorem scanLoop_succ (str : List Nat) (fuel i : Nat) (out : List Nat) :
    scanLoop str (fuel + 1) i out =
      if i < str.length then
        match leadLen (str.getD i 0) with
        | none => scanLoop str fuel (i + 1) out
        | some len =>
          if i + len > str.length then (i, out)
          else scanLoop str fuel (i + len) (out ++ (str.drop i).take len)
      else (i, out) := rfl

/-- Once `fuel` covers the bytes left, more fuel changes nothing: the loop has ended. -/
theorem scanLoop_fuel (str : List Nat) :
    ∀ (fuel i : Nat) (out : List Nat), str.length ≤ fuel + i →
      scanLoop str (fuel + 1) i out = scanLoop str fuel i out := by
  intro fuel
  induction fuel with
  | zero =>
    intro i out h
    rw [scanLoop_succ]
    have : ¬ i < str.length := by omega
    simp [this, scanLoop]
  | succ k ih =>
    intro i out h
    conv_lhs => rw [scanLoop_succ]
    conv_rhs => rw [scanLoop_succ]
    split
    · cases hl : leadLen (str.getD i 0) with
      | none => simp only []; exact ih _ _ (by omega)
      | some len =>
        simp only []
        have := leadLen_pos _ _ hl
        split
        · rfl
        · exact ih _ _ (by omega)
    · rfl

theorem scanLoop_fuel_add (str : List Nat) (fuel i : Nat) (out : List Nat)
    (h : str.length ≤ fuel + i) (k : Nat) :
    scanLoop str (fuel + k) i out = scanLoop str fuel i out := by
  induction k with
  | zero => rfl
  | succ k ih => rw [← Nat.add_assoc, scanLoop_fuel str (fuel + k) i out (by omega), ih]

/-- The loop only appends to `utf8_char`. -/
theorem scanLoop_acc (str : List Nat) :
    ∀ (fuel i : Nat) (out : List Nat),
      scanLoop str fuel i out = ((scanLoop str fuel i []).1, out ++ (scanLoop str fuel i []).2) := by
  intro fuel
  induction fuel with
  | zero => intro i out; simp [scanLoop]
  | succ k ih =>
    intro i out
    rw [scanLoop_succ str k i out, scanLoop_succ str k i []]
    split
    · cases hl : leadLen (str.getD i 0) with
      | none => simp only []; exact ih _ _
      | some len =>
        simp only []
        split
        · simp
        · rw [ih (i + len) (out ++ _), ih (i + len) ([] ++ _)]
          simp
    · simp

/-- The loop started behind a prefix `pre` behaves as the loop on the rest of the
string. -/
theorem scanLoop_shift (pre suf : List Nat) :
    ∀ (fuel i : Nat) (out : List Nat),
      scanLoop (pre ++ suf) fuel (pre.length + i) out =
        (pre.length + (scanLoop suf fuel i []).1, out ++ (scanLoop suf fuel i []).2) := by
  intro fuel
  induction fuel with
  | zero => intro i out; simp [scanLoop]
  | succ k ih =>
    intro i out
    rw [scanLoop_succ (pre ++ suf) k, scanLoop_succ suf k i []]
    have hget : (pre ++ suf).getD (pre.length + i) 0 = suf.getD i 0 := by
      simp [List.getD_eq_getElem?_getD, List.getElem?_append_right]
    have hdrop : (pre ++ suf).drop (pre.length + i) = suf.drop i := by
      rw [List.drop_append]
    rw [hget, hdrop]
    by_cases hi : i < suf.length
    · have hi2 : pre.length + i < (pre ++ suf).length := by simp; omega
      simp only [hi, hi2, if_true]
      cases hl : leadLen (suf.getD i 0) with
      | none =>
        simp only []
        rw [Nat.add_assoc]; exact ih _ _
      | some len =>
        simp only []
        by_cases hb : i + len > suf.length
        · have hb2 : pre.length + i + len > (pre ++ suf).length := by simp; omega
          rw [if_pos hb, if_pos hb2]
          simp
        · have hb2 : ¬ pre.length + i + len > (pre ++ suf).length := by simp; omega
          rw [if_neg hb, if_neg hb2]
          rw [Nat.add_assoc, ih, scanLoop_acc suf k (i + len) ([] ++ _)]
          simp
    · have hi2 : ¬ pre.length + i < (pre ++ suf).length := by simp; omega
      simp [hi, hi2]

theorem scan_nil : scan [] = (0, []) := rfl

/-- A whole character at the head of the string is collected and the scan goes on behind
it. -/
theorem scan_char (b : Nat) (t rest : List Nat) (h : leadLen b = some (t.length + 1)) :
    scan (b :: (t ++ rest)) = (t.length + 1 + (scan rest).1, b :: (t ++ (scan rest).2)) := by
  unfold scan
  have hlen : (b :: (t ++ rest)).length = (rest.length + t.length) + 1 := by simp; omega
  rw [hlen, scanLoop_succ]
  have h0 : 0 < (b :: (t ++ rest)).length := by simp
  have hb : ¬ 0 + (t.length + 1) > (b :: (t ++ rest)).length := by simp
  have htake : ((b :: (t ++ rest)).drop 0).take (t.length + 1) = b :: t := by simp
  simp only [h0, if_true, List.getD_cons_zero, h, hb, if_false, htake, List.nil_append]
  have := scanLoop_shift (b :: t) rest (rest.length + t.length) 0 ([] ++ b :: t)
  simp only [List.cons_append, List.length_cons, Nat.add_zero, List.nil_append] at this
  rw [Nat.zero_add, this, scanLoop_fuel_add rest rest.length 0 [] (by omega) t.length]

/-- A character that is not whole stops the scan at once. -/
theorem scan_pend (p : List Nat) (h : Pend p) : scan p = (0, []) := by
  rcases h with h | ⟨b, t, len, hp, hl, hlt⟩
  · subst h; rfl
  · subst hp
    unfold scan
    rw [List.length_cons, scanLoop_succ]
    have hb : 0 + len > (b :: t).length := by omega
    have h0 : 0 < (b :: t).length := by simp
    rw [if_pos h0, List.getD_cons_zero, hl]
    simp only []
    rw [if_pos hb]

/-- Whole characters followed by a character that is not whole: the scan collects the
whole characters and stops in front of the rest. -/
theorem scan_chars_pend (e p : List Nat) (he : Chars e) (hp : Pend p) :
    scan (e ++ p) = (e.length, e) := by
  induction he with
  | nil => simpa using scan_pend p hp
  | cons b t rest hl _ ih =>
    have : (b :: (t ++ rest)) ++ p = b :: (t ++ (rest ++ p)) := by simp
    rw [this, scan_char b t (rest ++ p) hl, ih]
    simp; omega


/-! ## The streaming decoder on well-formed text -/

theorem c_str_of_no_zero (l : List Nat) (h : 0 ∉ l) : c_str l = l := by
  unfold c_str
  rw [List.takeWhile_eq_self_iff]
  intro x hx
  have : x ≠ 0 := fun h0 => h (h0 ▸ hx)
  simpa using this

/-- What the first bytes of a text made of whole characters look like: whole characters,
then the first bytes of the character that the cut falls in. -/
theorem chars_split (z : List Nat) (hz : Chars z) :
    ∀ x y : List Nat, x ++ y = z →
      ∃ e p, x = e ++ p ∧ Chars e ∧ Pend p ∧ Chars (p ++ y) := by
  induction hz with
  | nil =>
    intro x y h
    have hx : x = [] := (List.append_eq_nil.mp h).1
    have hy : y = [] := (List.append_eq_nil.mp h).2
    subst hx hy
    exact ⟨[], [], rfl, Chars.nil, Or.inl rfl, Chars.nil⟩
  | cons b t rest hl hrest ih =>
    intro x y h
    by_cases hlen : t.length + 1 ≤ x.length
    · -- the first character lies inside `x`
      have h1 : x = (b :: t) ++ x.drop (t.length + 1) := by
        have := congrArg (List.take (t.length + 1)) h
        rw [List.take_append_of_le_length hlen] at this
        have h2 : List.take (t.length + 1) (b :: (t ++ rest)) = b :: t := by simp
        rw [h2] at this
        rw [← this, List.take_append_drop]
      have h3 : x.drop (t.length + 1) ++ y = rest := by
        have := congrArg (List.drop (t.length + 1)) h
        rw [List.drop_append_of_le_length hlen] at this
        rw [this]; simp
      obtain ⟨e, p, hep, he, hp, hpy⟩ := ih _ _ h3
      refine ⟨b :: (t ++ e), p, ?_, Chars.cons b t e hl he, hp, hpy⟩
      rw [h1, hep]; simp
    · -- the cut falls inside the first character
      refine ⟨[], x, rfl, Chars.nil, ?_, ?_⟩
      · cases x with
        | nil => exact Or.inl rfl
        | cons a x1 =>
          right
          have ha : a = b := by
            have := congrArg List.head? h
            simpa using this
          exact ⟨a, x1, t.length + 1, rfl, ha ▸ hl, by omega⟩
      · rw [h]; exact Chars.cons b t rest hl hrest

/-- A buffer made of whole characters that is also the beginning of an unfinished
character is empty. -/
theorem chars_pend_nil (p : List Nat) (hc : Chars p) (hp : Pend p) : p = [] := by
  rcases hp with h | ⟨b, t, len, hp, hl, hlt⟩
  · exact h
  · exfalso
    subst hp
    cases hc with
    | cons b1 t1 rest hl1 _ =>
      rw [hl] at hl1
      simp at hl1
      simp at hlt
      omega

/-- Lines 270-289 on a buffer that splits into whole characters `e` and an unfinished
character `p`: the string returned is `e` up to its first zero byte, and `p` stays in
`cached_token_str`. -/
theorem emit_chars_pend (cached piece e p : List Nat) (h : cached ++ piece = e ++ p)
    (he : Chars e) (hp : Pend p) : emit cached piece = (c_str e, p) := by
  unfold emit
  simp only [h, scan_chars_pend e p he hp]
  by_cases hnil : e = []
  · subst hnil; simp [c_str]
  · simp [hnil]

theorem feedAll_chars :
    ∀ (frags : List (List Nat)) (cached : List Nat), Pend cached →
      Chars (cached ++ frags.flatten) → 0 ∉ cached ++ frags.flatten →
      feedAll cached frags = (cached ++ frags.flatten, []) := by
  intro frags
  induction frags with
  | nil =>
    intro cached hp hc _
    have : cached = [] := chars_pend_nil cached (by simpa using hc) hp
    subst this
    rfl
  | cons f fs ih =>
    intro cached _ hc h0
    have hassoc : cached ++ (f :: fs).flatten = (cached ++ f) ++ fs.flatten := by simp
    rw [hassoc] at hc h0
    obtain ⟨e, p, hep, he, hp, hpy⟩ := chars_split _ hc (cached ++ f) fs.flatten rfl
    have h0e : 0 ∉ e := by
      intro hmem; apply h0; rw [hep]; simp [hmem]
    have h0p : 0 ∉ p ++ fs.flatten := by
      intro hmem; apply h0; rw [hep]
      rcases List.mem_append.mp hmem with h | h <;> simp [h]
    simp only [feedAll, emit_chars_pend cached f e p hep he hp, ih p hp hpy h0p,
      c_str_of_no_zero e h0e]
    rw [hassoc, hep]; simp


theorem leadLen_ascii (b : Nat) (h : b ≤ 0x7F) : leadLen b = some 1 := by
  interval_cases b <;> rfl

theorem leadLen_two (b : Nat) (h1 : 0xC2 ≤ b) (h2 : b ≤ 0xDF) : leadLen b = some 2 := by
  interval_cases b <;> rfl

theorem leadLen_three (b : Nat) (h1 : 0xE0 ≤ b) (h2 : b ≤ 0xEF) : leadLen b = some 3 := by
  interval_cases b <;> rfl

theorem leadLen_four (b : Nat) (h1 : 0xF0 ≤ b) (h2 : b ≤ 0xF4) : leadLen b = some 4 := by
  interval_cases b <;> rfl

/-- A text accepted by `validFrom` consists of the `need` bytes still expected followed by
whole characters in the sense of the scan. -/
theorem validFrom_chars : ∀ (text : List Nat) (need lo hi : Nat),
    validFrom need lo hi text = true →
      ∃ t rest, text = t ++ rest ∧ t.length = need ∧ Chars rest := by
  intro text
  induction text with
  | nil =>
    intro need lo hi hv
    cases need with
    | zero => exact ⟨[], [], rfl, rfl, Chars.nil⟩
    | succ n => simp [validFrom] at hv
  | cons b rest ih =>
    intro need lo hi hv
    cases need with
    | zero =>
      refine ⟨[], b :: rest, rfl, rfl, ?_⟩
      rw [validFrom] at hv
      split_ifs at hv with h1 h2 h3 h4 h5 h6 h7 h8
      · obtain ⟨t, r, ht, hl, hc⟩ := ih _ _ _ hv
        rw [ht]; exact Chars.cons b t r (by rw [hl]; exact leadLen_ascii b h1) hc
      · obtain ⟨t, r, ht, hl, hc⟩ := ih _ _ _ hv
        rw [ht]; exact Chars.cons b t r (by rw [hl]; exact leadLen_two b h2.1 h2.2) hc
      · obtain ⟨t, r, ht, hl, hc⟩ := ih _ _ _ hv
        rw [ht]; exact Chars.cons b t r (by rw [hl]; exact leadLen_three b (by omega) (by omega)) hc
      · obtain ⟨t, r, ht, hl, hc⟩ := ih _ _ _ hv
        rw [ht]; exact Chars.cons b t r (by rw [hl]; exact leadLen_three b (by omega) (by omega)) hc
      · obtain ⟨t, r, ht, hl, hc⟩ := ih _ _ _ hv
        rw [ht]; exact Chars.cons b t r (by rw [hl]; exact leadLen_three b (by omega) (by omega)) hc
      · obtain ⟨t, r, ht, hl, hc⟩ := ih _ _ _ hv
        rw [ht]; exact Chars.cons b t r (by rw [hl]; exact leadLen_four b (by omega) (by omega)) hc
      · obtain ⟨t, r, ht, hl, hc⟩ := ih _ _ _ hv
        rw [ht]; exact Chars.cons b t r (by rw [hl]; exact leadLen_four b (by omega) (by omega)) hc
      · obtain ⟨t, r, ht, hl, hc⟩ := ih _ _ _ hv
        rw [ht]; exact Chars.cons b t r (by rw [hl]; exact leadLen_four b (by omega) (by omega)) hc
    | succ n =>
      rw [validFrom] at hv
      split_ifs at hv with h1
      obtain ⟨t, r, ht, hl, hc⟩ := ih _ _ _ hv
      exact ⟨b :: t, r, by rw [ht]; rfl, by simp [hl], hc⟩

/-- Well-formed UTF-8 is made of whole characters in the sense of the scan. -/
theorem validUTF8_chars (text : List Nat) (hv : validUTF8 text = true) : Chars text := by
  obtain ⟨t, r, ht, hl, hc⟩ := validFrom_chars text 0 _ _ hv
  have : t = [] := List.length_eq_zero.mp hl
  subst this
  rw [ht]; exact hc

/-- C2, as stated, fails: the one-byte text U+0000 is well-formed UTF-8, the scan collects
its byte, and the string handed to `NewStringUTF` through `c_str()` ends at that byte, so
the chunk returned is empty and differs from the text. -/
theorem round_trip_fails_on_zero_byte :
    validUTF8 [0] = true ∧ [[0]].flatten = [0] ∧ feedAll [] [[0]] = ([], []) ∧
      (feedAll [] [[0]]).1 ≠ [0] := by
  decide

/-- C2, amended: for every well-formed UTF-8 byte string `text` without a zero byte and
every way of cutting it into fragments (`frags.flatten = text`; cuts inside characters and
empty fragments allowed), feeding the fragments one by one to lines 270-289 from an empty
`cached_token_str` returns chunks whose concatenation is exactly `text`, and
`cached_token_str` is empty at the end. -/
theorem streaming_round_trip (text : List Nat) (frags : List (List Nat))
    (hvalid : validUTF8 text = true) (hzero : 0 ∉ text) (hcut : frags.flatten = text) :
    feedAll [] frags = (text, []) := by
  have hc : Chars ([] ++ frags.flatten) := by
    rw [hcut]; exact validUTF8_chars text hvalid
  have h0 : 0 ∉ [] ++ frags.flatten := by rw [hcut]; exact hzero
  have := feedAll_chars frags [] (Or.inl rfl) hc h0
  rw [this, hcut]; rfl

/-- The hypotheses of the amended C2 hold for the text `A`, euro sign, an emoji, `e` with
acute accent, cut inside three of its characters. -/
theorem streaming_round_trip_witness :
    validUTF8 [0x41, 0xE2, 0x82, 0xAC, 0xF0, 0x9F, 0x98, 0x80, 0xC3, 0xA9] = true ∧
    0 ∉ [0x41, 0xE2, 0x82, 0xAC, 0xF0, 0x9F, 0x98, 0x80, 0xC3, 0xA9] ∧
    feedAll [] [[0x41, 0xE2], [], [0x82], [0xAC, 0xF0, 0x9F, 0x98], [0x80, 0xC3, 0xA9]]
      = ([0x41, 0xE2, 0x82, 0xAC, 0xF0, 0x9F, 0x98, 0x80, 0xC3, 0xA9], []) :=
  ⟨by decide, by decide,
   streaming_round_trip [0x41, 0xE2, 0x82, 0xAC, 0xF0, 0x9F, 0x98, 0x80, 0xC3, 0xA9]
    [[0x41, 0xE2], [], [0x82], [0xAC, 0xF0, 0x9F, 0x98], [0x80, 0xC3, 0xA9]]
    (by decide) (by decide) (by decide)⟩


/-! ## Prompt submission -/

theorem startInference_decode_failed (s : Session) (toks : List Int) :
    (startInference s toks false).1 = false := by
  simp only [startInference]
  split_ifs <;> simp

/-- A first prompt of 1921 tokens on a fresh window of 2048 positions: the anchor is set to
1921, the pruning block runs with `n_left = -1921` and so raises `n_past` from 0 to 480, and
the prompt is then rejected by the size check. -/
theorem startInference_oversized_first_prompt (toks : List Int) (ok : Bool)
    (h : toks.length = 1921) :
    startInference (fresh 2048) toks ok
      = (false, { fresh 2048 with n_past := 480, g_n_keep := 1921 }) := by
  have hp : prune (initKeep (fresh 2048) 1921) 1921
      = { fresh 2048 with n_past := 480, g_n_keep := 1921 } := by decide
  have hl : ((toks.length : Nat) : Int) = 1921 := by rw [h]; rfl
  rw [startInference_too_long (fresh 2048) toks ok rfl (by rw [hl, hp]; decide), hl, hp]

/-- C1: the window invariant `0 <= g_n_keep <= n_past <= n_ctx` holds in the fresh session
and is broken by the first call already when the decode of a first prompt of three tokens
fails: `g_n_keep` is 3 and `n_past` is still 0. -/
theorem window_invariant_broken_by_failed_first_prompt :
    WindowInv (fresh 2048) ∧
    (run (fresh 2048) [Op.submit_prompt [1, 2, 3] false]).g_n_keep = 3 ∧
    (run (fresh 2048) [Op.submit_prompt [1, 2, 3] false]).n_past = 0 ∧
    ¬ WindowInv (run (fresh 2048) [Op.submit_prompt [1, 2, 3] false]) := by
  decide

/-- C3: on a fresh window of 2048 positions a first prompt of 1921 tokens fires the trigger
`0 + 1921 > 2048 - 128`; the pruning block then computes `n_to_remove = -1921 / 4 = -480`
and `n_past` goes from 0 up to 480 although the memory holds nothing. -/
theorem pruning_raises_n_past_on_oversized_first_prompt :
    (fresh 2048).n_past = 0 ∧
    startInference (fresh 2048) (List.replicate 1921 0) true
      = (false, { fresh 2048 with n_past := 480, g_n_keep := 1921 }) :=
  ⟨rfl, startInference_oversized_first_prompt _ _ (List.length_replicate _ _)⟩

/-- C4, as stated, fails: with 1930 positions occupied out of 2048 a prompt of 100 tokens
is pruned for (470 positions go) before the decode, and when the decode fails `n_past` is
1460, not the 1930 it was before the call. -/
theorem failed_prompt_keeps_the_pruning :
    nearlyFull.n_past = 1930 ∧
    (startInference nearlyFull (List.replicate 100 0) false).1 = false ∧
    (startInference nearlyFull (List.replicate 100 0) false).2.n_past = 1460 := by
  refine ⟨rfl, startInference_decode_failed _ _, ?_⟩
  rw [startInference_fail_n_past _ _ _ rfl (startInference_decode_failed _ _), prune_n_past,
    initKeep_n_past, initKeep_n_ctx, initKeep_g_n_keep, List.length_replicate]
  decide

/-- C4, amended: when `startInference` returns `JNI_FALSE` on a loaded context whose window
is not empty (`n_past != 0`), `g_n_keep` is unchanged and `n_past` has only gone through the
pruning block: it is unchanged when the trigger `n_past + n_tokens > n_ctx - 128` did not
fire and is `n_past - (n_past - g_n_keep) / 4` (C++ division) when it fired; the prompt is
never counted, and `n_past` has not grown when the anchor was within the window. -/
theorem failed_prompt_counters (s : Session) (toks : List Int) (ok : Bool)
    (hc : s.ctx = true) (h0 : s.n_past ≠ 0) (hf : (startInference s toks ok).1 = false) :
    (startInference s toks ok).2.g_n_keep = s.g_n_keep ∧
    (startInference s toks ok).2.n_past =
      (if s.n_past + (toks.length : Int) > toI32 s.n_ctx - 128
        then s.n_past - Int.tdiv (s.n_past - s.g_n_keep) 4 else s.n_past) ∧
    (s.g_n_keep ≤ s.n_past → (startInference s toks ok).2.n_past ≤ s.n_past) := by
  have hn : (startInference s toks ok).2.n_past =
      (if s.n_past + (toks.length : Int) > toI32 s.n_ctx - 128
        then s.n_past - Int.tdiv (s.n_past - s.g_n_keep) 4 else s.n_past) := by
    rw [startInference_fail_n_past s toks ok hc hf, prune_n_past, initKeep_n_past,
      initKeep_n_ctx, initKeep_g_n_keep, if_neg h0]
  refine ⟨?_, hn, ?_⟩
  · rw [startInference_g_n_keep]; simp [h0]
  · intro hle
    rw [hn]
    split
    · rw [tdiv_four, if_pos (by omega)]; omega
    · exact le_refl _

/-- The hypotheses of the amended C4 hold for the prompt of 100 tokens whose decode fails
on `nearlyFull`. -/
theorem failed_prompt_counters_witness :
    nearlyFull.ctx = true ∧ nearlyFull.n_past ≠ 0 ∧
    (startInference nearlyFull (List.replicate 100 0) false).1 = false ∧
    (startInference nearlyFull (List.replicate 100 0) false).2.g_n_keep = nearlyFull.g_n_keep ∧
    (startInference nearlyFull (List.replicate 100 0) false).2.n_past =
      (if nearlyFull.n_past + ((List.replicate 100 (0 : Int)).length : Int)
          > toI32 nearlyFull.n_ctx - 128
        then nearlyFull.n_past - Int.tdiv (nearlyFull.n_past - nearlyFull.g_n_keep) 4
        else nearlyFull.n_past) ∧
    (startInference nearlyFull (List.replicate 100 0) false).2.n_past ≤ nearlyFull.n_past :=
  ⟨rfl, by decide, by decide,
   (failed_prompt_counters nearlyFull (List.replicate 100 0) false rfl (by decide)
      (by decide)).1,
   (failed_prompt_counters nearlyFull (List.replicate 100 0) false rfl (by decide)
      (by decide)).2.1,
   (failed_prompt_counters nearlyFull (List.replicate 100 0) false rfl (by decide)
      (by decide)).2.2 (by decide)⟩

/-- C5, as stated, fails: on a window of 8 positions the second prompt, of 2 tokens, is
refused by the size check of line 200 (`3 + 2 > 8 - 4`). -/
theorem small_window_second_prompt_refused :
    (startInference (startInference (fresh 8) [1, 2, 3] true).2 [4, 5] true).1 = false := by
  decide

/-- C5, amended: with `n_ctx = 8`, a fresh session and decodes that succeed, a first prompt
of 3 tokens is accepted and sets `g_n_keep = 3` and `n_past = 3`; a second prompt of 2
tokens is then refused as too long (`3 + 2 > 8 - 4`), nothing is removed from the memory,
and `n_past` and `g_n_keep` both stay 3. -/
theorem small_window_scenario :
    (startInference (fresh 8) [1, 2, 3] true).1 = true ∧
    (startInference (fresh 8) [1, 2, 3] true).2.g_n_keep = 3 ∧
    (startInference (fresh 8) [1, 2, 3] true).2.n_past = 3 ∧
    (startInference (fresh 8) [1, 2, 3] true).2.mem = [0, 1, 2] ∧
    (startInference (startInference (fresh 8) [1, 2, 3] true).2 [4, 5] true).1 = false ∧
    (startInference (startInference (fresh 8) [1, 2, 3] true).2 [4, 5] true).2.mem = [0, 1, 2] ∧
    (startInference (startInference (fresh 8) [1, 2, 3] true).2 [4, 5] true).2.n_past = 3 ∧
    (startInference (startInference (fresh 8) [1, 2, 3] true).2 [4, 5] true).2.g_n_keep = 3 := by
  decide


/-! ## The anchor -/

theorem continueInference_g_n_keep (s : Session) (t : Int) (e d : Bool)
    (p : Option (List Nat)) : (continueInference s t e d p).2.g_n_keep = s.g_n_keep := by
  simp only [continueInference]
  split_ifs <;> try rfl
  cases p <;> rfl

theorem finalizeTurn_g_n_keep (s : Session) (t : Int) (d : Bool) :
    (finalizeTurn s t d).g_n_keep = s.g_n_keep := by
  simp only [finalizeTurn]
  split_ifs <;> rfl

theorem resetContext_g_n_keep (s : Session) (m : Bool) :
    (resetContext s m).g_n_keep = s.g_n_keep := by
  simp only [resetContext]
  split_ifs <;> rfl

/-- C6, as stated, fails: `finalizeTurn` may be called before any prompt; it occupies
position 0, so the first `startInference` call finds `n_past = 1`, succeeds, and leaves
`g_n_keep` at 0 instead of setting it to the 3 tokens of its prompt. -/
theorem first_prompt_after_finalize_sets_no_anchor :
    (startInference (run (fresh 2048) [Op.finalize_turn 2 true]) [1, 2, 3] true).1 = true ∧
    (run (fresh 2048) [Op.finalize_turn 2 true, Op.submit_prompt [1, 2, 3] true]).g_n_keep = 0 ∧
    (run (fresh 2048) [Op.finalize_turn 2 true, Op.submit_prompt [1, 2, 3] true]).n_past = 4 := by
  decide

/-- C6, amended: the anchor is written by the gate `n_past == 0` of `startInference` and by
nothing else.  A `startInference` call that succeeds from `n_past = 0` sets `g_n_keep` to
the token count of its prompt; a `startInference` call made with `n_past != 0` (whatever its
outcome) and every `continueInference`, `finalizeTurn` and `resetContext` call leave
`g_n_keep` unchanged. -/
theorem anchor_written_only_from_empty_window (s : Session) :
    (∀ toks ok, s.n_past = 0 → (startInference s toks ok).1 = true →
      (startInference s toks ok).2.g_n_keep = (toks.length : Int)) ∧
    (∀ toks ok, s.n_past ≠ 0 → (startInference s toks ok).2.g_n_keep = s.g_n_keep) ∧
    (∀ t e d p, (continueInference s t e d p).2.g_n_keep = s.g_n_keep) ∧
    (∀ t d, (finalizeTurn s t d).g_n_keep = s.g_n_keep) ∧
    (∀ m, (resetContext s m).g_n_keep = s.g_n_keep) := by
  refine ⟨?_, ?_, continueInference_g_n_keep s, finalizeTurn_g_n_keep s,
    resetContext_g_n_keep s⟩
  · intro toks ok h0 hs
    have hc : s.ctx = true := by
      cases hctx : s.ctx with
      | true => rfl
      | false => simp [startInference, hctx] at hs
    rw [startInference_g_n_keep]; simp [hc, h0]
  · intro toks ok h0
    rw [startInference_g_n_keep]; simp [h0]

/-- The hypotheses of the amended C6 hold for a first prompt on the fresh session and for
a second prompt after it. -/
theorem anchor_written_only_from_empty_window_witness :
    (fresh 2048).n_past = 0 ∧
    (startInference (fresh 2048) [1, 2, 3] true).1 = true ∧
    (startInference (fresh 2048) [1, 2, 3] true).2.n_past ≠ 0 ∧
    (startInference (fresh 2048) [1, 2, 3] true).2.g_n_keep = (([1, 2, 3] : List Int).length : Int) ∧
    (startInference (startInference (fresh 2048) [1, 2, 3] true).2 [4, 5] false).2.g_n_keep
      = (startInference (fresh 2048) [1, 2, 3] true).2.g_n_keep :=
  ⟨rfl, by decide, by decide,
   (anchor_written_only_from_empty_window (fresh 2048)).1 [1, 2, 3] true (by decide) (by decide),
   (anchor_written_only_from_empty_window (startInference (fresh 2048) [1, 2, 3] true).2).2.1
      [4, 5] false (by decide)⟩

/-! ## Snapshots -/

/-- C7: two reachable states in which `n_past` is not `max_position + 1`, so that a save
followed by a load that restores the saved memory exactly does not give `n_past` back.
After a `finalizeTurn` whose decode fails on a fresh session `n_past` is 1 and the memory is
empty; after a first prompt of 1921 tokens, refused as too long, `n_past` is 480 and the
memory is empty.  In both the save succeeds, the load succeeds, and `n_past` is 0
afterwards. -/
theorem save_load_does_not_restore_n_past :
    (run (fresh 2048) [Op.finalize_turn 2 false]).n_past = 1 ∧
    saveKVCache (run (fresh 2048) [Op.finalize_turn 2 false]) true true = (true, some []) ∧
    (loadKVCache (run (fresh 2048) [Op.finalize_turn 2 false]) (some 64) 64 []).1 = true ∧
    (loadKVCache (run (fresh 2048) [Op.finalize_turn 2 false]) (some 64) 64 []).2.n_past = 0 ∧
    (run (fresh 2048) [Op.submit_prompt (List.replicate 1921 0) true]).n_past = 480 ∧
    saveKVCache (run (fresh 2048) [Op.submit_prompt (List.replicate 1921 0) true]) true true
      = (true, some []) ∧
    (loadKVCache (run (fresh 2048) [Op.submit_prompt (List.replicate 1921 0) true])
      (some 64) 64 []).1 = true ∧
    (loadKVCache (run (fresh 2048) [Op.submit_prompt (List.replicate 1921 0) true])
      (some 64) 64 []).2.n_past = 0 := by
  have h : run (fresh 2048) [Op.submit_prompt (List.replicate 1921 0) true]
      = { fresh 2048 with n_past := 480, g_n_keep := 1921 } := by
    show (startInference (fresh 2048) (List.replicate 1921 0) true).2 = _
    rw [startInference_oversized_first_prompt _ _ (List.length_replicate _ _)]
  rw [h]
  decide

/-- C8: on a loaded context, once the file has been read into a buffer of `size` bytes: if
`llama_state_set_data` reports a count different from `size`, `loadKVCache` returns
`JNI_FALSE` and leaves `n_past` and `g_n_keep` as they were; if the counts agree it returns
`JNI_TRUE`, sets `n_past` to `max_pos + 1`, or to 0 when the backend reports `max_pos = -1`,
and sets `g_n_keep` to the new `n_past`. -/
theorem loadKVCache_postcondition (s : Session) (size bytes_read : Nat) (restored : List Int)
    (hc : s.ctx = true) :
    (bytes_read ≠ size →
      (loadKVCache s (some size) bytes_read restored).1 = false ∧
      (loadKVCache s (some size) bytes_read restored).2.n_past = s.n_past ∧
      (loadKVCache s (some size) bytes_read restored).2.g_n_keep = s.g_n_keep) ∧
    (bytes_read = size →
      (loadKVCache s (some size) bytes_read restored).1 = true ∧
      (loadKVCache s (some size) bytes_read restored).2.n_past =
        (if llama_memory_seq_pos_max restored = -1 then 0
          else llama_memory_seq_pos_max restored + 1) ∧
      (loadKVCache s (some size) bytes_read restored).2.g_n_keep =
        (loadKVCache s (some size) bytes_read restored).2.n_past) := by
  constructor
  · intro h
    simp [loadKVCache, hc, h]
  · intro h
    simp [loadKVCache, hc, h]

/-- The hypotheses of C8 hold on `nearlyFull`, both for a count that differs from the
buffer size and for one that agrees with it. -/
theorem loadKVCache_postcondition_witness :
    nearlyFull.ctx = true ∧
    ((loadKVCache nearlyFull (some 64) 5 [0, 1, 2]).1 = false ∧
      (loadKVCache nearlyFull (some 64) 5 [0, 1, 2]).2.n_past = nearlyFull.n_past ∧
      (loadKVCache nearlyFull (some 64) 5 [0, 1, 2]).2.g_n_keep = nearlyFull.g_n_keep) ∧
    ((loadKVCache nearlyFull (some 64) 64 [0, 1, 2]).1 = true ∧
      (loadKVCache nearlyFull (some 64) 64 [0, 1, 2]).2.n_past =
        (if llama_memory_seq_pos_max [0, 1, 2] = -1 then 0
          else llama_memory_seq_pos_max [0, 1, 2] + 1) ∧
      (loadKVCache nearlyFull (some 64) 64 [0, 1, 2]).2.g_n_keep =
        (loadKVCache nearlyFull (some 64) 64 [0, 1, 2]).2.n_past) :=
  ⟨rfl,
   (loadKVCache_postcondition nearlyFull 64 5 [0, 1, 2] rfl).1 (by decide),
   (loadKVCache_postcondition nearlyFull 64 64 [0, 1, 2] rfl).2 rfl⟩

/-! ## Soft reset -/

/-- C9: a turn is started, one token is generated whose piece is the first two bytes
`E2 82` of a three-byte character, and the context is soft-reset.  `cached_token_str` still
holds `E2 82`, and the next `continueInference`, whose token has the piece `A` (0x41),
returns `E2 82 41`: two bytes of the token generated before the reset. -/
theorem soft_reset_keeps_pending_bytes :
    (run (fresh 2048) [Op.submit_prompt [1, 2, 3] true,
        Op.generate_next 9 false true (some [0xE2, 0x82]),
        Op.soft_reset true]).cached_token_str = [0xE2, 0x82] ∧
    (continueInference
      (run (fresh 2048) [Op.submit_prompt [1, 2, 3] true,
        Op.generate_next 9 false true (some [0xE2, 0x82]),
        Op.soft_reset true])
      8 false true (some [0x41])).1 = some [0xE2, 0x82, 0x41] := by
  decide

/-- C10: after a first prompt of three tokens whose decode fails, `g_n_keep` is 3, `n_past`
is 0 and the memory is empty; `resetContext` then sets `n_past` to 3, more than it was
before the call. -/
theorem soft_reset_raises_n_past_after_failed_prompt :
    (run (fresh 2048) [Op.submit_prompt [1, 2, 3] false]).n_past = 0 ∧
    (run (fresh 2048) [Op.submit_prompt [1, 2, 3] false]).mem = [] ∧
    (resetContext (run (fresh 2048) [Op.submit_prompt [1, 2, 3] false]) true).n_past = 3 ∧
    (resetContext (run (fresh 2048) [Op.submit_prompt [1, 2, 3] false]) true).mem = [] := by
  decide


/-! ## What pruning and soft reset do when the anchor lies within the window -/

/-- Removing `[k, k + r)` and shifting what lies behind it down by `r`: positions below `k`
stay where they are, positions in `[k, k + r)` go, positions from `k + r` on move down by
`r`. -/
theorem seq_rm_then_seq_add (mem : List Int) (k r : Int) (hk : 0 ≤ k) (hr : 0 ≤ r) :
    llama_memory_seq_add (llama_memory_seq_rm mem k (k + r)) (k + r) (-1) (-r) =
      (mem.filter (fun p => decide (p < k) || decide (k + r ≤ p))).map
        (fun p => if p < k then p else p - r) := by
  have h1 : ¬ k < 0 := by omega
  have h2 : ¬ k + r < 0 := by omega
  have hrm : llama_memory_seq_rm mem k (k + r)
      = mem.filter (fun p => decide (p < k) || decide (k + r ≤ p)) := by
    unfold llama_memory_seq_rm
    congr 1
    funext p
    simp only [h1, h2, if_false]
    by_cases hp : p < k
    · have : ¬ k ≤ p := by omega
      simp [hp, this]
    · have e1 : k ≤ p := by omega
      by_cases hq : p < k + r
      · have : ¬ k + r ≤ p := by omega
        simp [hp, e1, hq, this]
      · have : k + r ≤ p := by omega
        simp [hp, e1, hq, this]
  have hadd : ∀ l : List Int, llama_memory_seq_add l (k + r) (-1) (-r)
      = l.map (fun p => if k + r ≤ p then p - r else p) := by
    intro l
    unfold llama_memory_seq_add
    rw [← List.filterMap_eq_map]
    congr 1
    funext p
    simp only [h2, if_false, Function.comp]
    by_cases hq : k + r ≤ p
    · have : ¬ p + -r < 0 := by omega
      simp [hq, this]; omega
    · simp [hq]
  rw [hrm, hadd]
  apply List.map_congr_left
  intro p hp
  rw [List.mem_filter] at hp
  have := hp.2
  simp only [Bool.or_eq_true, decide_eq_true_eq] at this
  rcases this with h | h
  · have : ¬ k + r ≤ p := by omega
    simp [h, this]
  · have : ¬ p < k := by omega
    simp [h, this]

/-- The pruning block on a state whose anchor lies within the window (`0 <= g_n_keep <=
n_past`), when the trigger fires: `n_past` drops by exactly `(n_past - g_n_keep) / 4`, which
is not negative; the memory loses exactly the positions in `[g_n_keep, g_n_keep +
n_to_remove)`, the positions behind them move down by `n_to_remove`, and the positions below
`g_n_keep` are neither removed nor moved. -/
theorem prune_within_window (s : Session) (n : Int)
    (hk : 0 ≤ s.g_n_keep) (hle : s.g_n_keep ≤ s.n_past)
    (ht : s.n_past + n > toI32 s.n_ctx - 128) :
    (prune s n).n_past = s.n_past - (s.n_past - s.g_n_keep) / 4 ∧
    (prune s n).n_past ≤ s.n_past ∧
    s.g_n_keep ≤ (prune s n).n_past ∧
    (prune s n).g_n_keep = s.g_n_keep ∧
    (prune s n).mem =
      (s.mem.filter (fun p => decide (p < s.g_n_keep) ||
          decide (s.g_n_keep + (s.n_past - s.g_n_keep) / 4 ≤ p))).map
        (fun p => if p < s.g_n_keep then p else p - (s.n_past - s.g_n_keep) / 4) := by
  have hd : Int.tdiv (s.n_past - s.g_n_keep) 4 = (s.n_past - s.g_n_keep) / 4 := by
    rw [tdiv_four, if_pos (by omega)]
  have hr : 0 ≤ (s.n_past - s.g_n_keep) / 4 := by omega
  refine ⟨?_, ?_, ?_, prune_g_n_keep s n, ?_⟩
  · rw [prune_n_past, if_pos ht, hd]
  · rw [prune_n_past, if_pos ht, hd]; omega
  · rw [prune_n_past, if_pos ht, hd]; omega
  · unfold prune
    simp only [if_pos ht, hd]
    exact seq_rm_then_seq_add s.mem s.g_n_keep _ hk hr

/-- The scenario of the specification: `n_ctx = 2048`, anchor 50, 1930 positions occupied,
100 new tokens.  The trigger fires, 470 positions are removed, `n_past` becomes 1460, and
the prompt then fits (`1460 + 100 <= 2048 - 128`). -/
theorem prune_scenario :
    nearlyFull.n_past + 100 > toI32 nearlyFull.n_ctx - 128 ∧
    Int.tdiv (nearlyFull.n_past - nearlyFull.g_n_keep) 4 = 470 ∧
    (prune nearlyFull 100).n_past = 1460 ∧
    (prune nearlyFull 100).n_past + 100 ≤ 2048 - 128 := by
  refine ⟨by decide, by decide, ?_, ?_⟩
  · rw [prune_n_past]; decide
  · rw [prune_n_past]; decide

theorem resetContext_no_anchor (s : Session) (m : Bool) (h : s.g_n_keep = 0) :
    resetContext s m = s := by
  simp [resetContext, h]

/-- With an anchor (`g_n_keep > 0`) and a memory handle, `resetContext` removes every
position from `g_n_keep` on, sets `n_past` to `g_n_keep`, resets the sampler and leaves the
rest, the anchor and `cached_token_str` included, as it was. -/
theorem resetContext_with_anchor (s : Session) (hc : s.ctx = true) (hk : 0 < s.g_n_keep) :
    resetContext s true =
      { s with mem := s.mem.filter (fun p => decide (p < s.g_n_keep)),
               n_past := s.g_n_keep, smpl := [] } := by
  have h1 : s.g_n_keep ≠ 0 := by omega
  have h2 : ¬ s.g_n_keep < 0 := by omega
  have hf : llama_memory_seq_rm s.mem s.g_n_keep (-1)
      = s.mem.filter (fun p => decide (p < s.g_n_keep)) := by
    unfold llama_memory_seq_rm
    congr 1
    funext p
    simp only [h2, if_false]
    by_cases hp : p < s.g_n_keep
    · have : ¬ s.g_n_keep ≤ p := by omega
      simp [hp, this]
    · have : s.g_n_keep ≤ p := by omega
      simp [hp, this]
  simp [resetContext, hc, h1, hf]

/-- A second `resetContext` changes nothing. -/
theorem resetContext_idempotent (s : Session) (m : Bool) :
    resetContext (resetContext s m) m = resetContext s m := by
  unfold resetContext
  by_cases hc : s.ctx = false
  · simp [hc]
  · by_cases hk : s.g_n_keep = 0
    · simp [hc, hk]
    · cases m with
      | false => simp [hc, hk]
      | true =>
        simp [hc, hk, llama_memory_seq_rm, List.filter_filter]

/-! ## What the scan does on arbitrary bytes -/

/-- A byte without leader pattern at the head of the string is skipped and the scan goes on
behind it. -/
theorem scan_skip (b : Nat) (rest : List Nat) (h : leadLen b = none) :
    scan (b :: rest) = (1 + (scan rest).1, (scan rest).2) := by
  unfold scan
  rw [List.length_cons, scanLoop_succ]
  have h0 : 0 < (b :: rest).length := by simp
  rw [if_pos h0, List.getD_cons_zero, h]
  simp only []
  have := scanLoop_shift [b] rest rest.length 0 []
  simp only [List.singleton_append, List.length_singleton, Nat.add_zero, List.nil_append] at this
  rw [Nat.zero_add, this]

/-- The scan of any string: it walks through a stretch of whole characters and skipped
bytes and stops at the end of the string or in front of a character that is not whole. -/
theorem scan_spec : ∀ (n : Nat) (str : List Nat), str.length ≤ n →
    (scan str).1 ≤ str.length ∧ Seg (str.take (scan str).1) (scan str).2 ∧
      Pend (str.drop (scan str).1) := by
  intro n
  induction n with
  | zero =>
    intro str h
    have : str = [] := List.length_eq_zero.mp (by omega)
    subst this
    exact ⟨le_refl _, Seg.nil, Or.inl rfl⟩
  | succ n ih =>
    intro str h
    cases str with
    | nil => exact ⟨le_refl _, Seg.nil, Or.inl rfl⟩
    | cons b rest =>
      simp only [List.length_cons] at h
      cases hl : leadLen b with
      | none =>
        obtain ⟨h1, h2, h3⟩ := ih rest (by omega)
        rw [scan_skip b rest hl]
        refine ⟨by simp; omega, ?_, ?_⟩
        · rw [Nat.add_comm 1, List.take_succ_cons]; exact Seg.skip b _ _ hl h2
        · rw [Nat.add_comm 1, List.drop_succ_cons]; exact h3
      | some len =>
        have hpos := leadLen_pos b len hl
        by_cases hfit : len ≤ rest.length + 1
        · have hsplit : rest = rest.take (len - 1) ++ rest.drop (len - 1) :=
            (List.take_append_drop _ _).symm
          have htl : (rest.take (len - 1)).length = len - 1 := by
            rw [List.length_take]; omega
          have hl2 : leadLen b = some ((rest.take (len - 1)).length + 1) := by
            rw [htl, hl]; congr 1; omega
          obtain ⟨h1, h2, h3⟩ := ih (rest.drop (len - 1)) (by rw [List.length_drop]; omega)
          have hs := scan_char b (rest.take (len - 1)) (rest.drop (len - 1)) hl2
          rw [← hsplit] at hs
          rw [hs, htl]
          have hlen1 : len - 1 + 1 = len := by omega
          rw [hlen1]
          rw [List.length_drop] at h1
          refine ⟨by simp; omega, ?_, ?_⟩
          · have : (b :: rest).take (len + (scan (rest.drop (len - 1))).1)
                = b :: (rest.take (len - 1) ++
                    (rest.drop (len - 1)).take (scan (rest.drop (len - 1))).1) := by
              have e1 : len + (scan (rest.drop (len - 1))).1
                  = (len - 1 + (scan (rest.drop (len - 1))).1) + 1 := by omega
              rw [e1, List.take_succ_cons, List.take_add]
            rw [this]
            exact Seg.char b _ _ _ hl2 h2
          · have : (b :: rest).drop (len + (scan (rest.drop (len - 1))).1)
                = (rest.drop (len - 1)).drop (scan (rest.drop (len - 1))).1 := by
              have e1 : len + (scan (rest.drop (len - 1))).1
                  = (len - 1 + (scan (rest.drop (len - 1))).1) + 1 := by omega
              rw [e1, List.drop_succ_cons, List.drop_drop]
            rw [this]; exact h3
        · have hp : Pend (b :: rest) :=
            Or.inr ⟨b, rest, len, rfl, hl, by simp; omega⟩
          rw [scan_pend _ hp]
          exact ⟨Nat.zero_le _, Seg.nil, hp⟩

/-! ## The pending buffer -/

theorem pend_incomplete (p : List Nat) (h : Pend p) : p = [] ∨ IncompleteChar p := by
  rcases h with h | ⟨b, t, len, hp, hl, hlt⟩
  · exact Or.inl h
  · right
    have h4 := leadLen_le_four b len hl
    have h1 : 1 ≤ p.length := by rw [hp]; simp
    exact ⟨b, t, len, hp, hl, by omega, h4, hlt⟩

theorem pend_length (p : List Nat) (h : Pend p) : p.length ≤ 3 := by
  rcases h with h | ⟨b, t, len, _, hl, hlt⟩
  · subst h; simp
  · have h4 := leadLen_le_four b len hl
    omega

/-- Feeding the beginning of a text made of whole characters leaves an unfinished character,
or nothing, in the buffer. -/
theorem feedAll_pend : ∀ (frags : List (List Nat)) (cached rest : List Nat), Pend cached →
    Chars (cached ++ frags.flatten ++ rest) → Pend (feedAll cached frags).2 := by
  intro frags
  induction frags with
  | nil => intro cached rest hp _; exact hp
  | cons f fs ih =>
    intro cached rest _ hc
    have hassoc : cached ++ (f :: fs).flatten ++ rest = (cached ++ f) ++ (fs.flatten ++ rest) := by
      simp
    rw [hassoc] at hc
    obtain ⟨e, p, hep, he, hp, hpy⟩ := chars_split _ hc (cached ++ f) (fs.flatten ++ rest) rfl
    simp only [feedAll, emit_chars_pend cached f e p hep he hp]
    exact ih p rest hp (by rw [List.append_assoc]; exact hpy)

/-- C14, as stated, fails: the fragment `80` (a byte without leader pattern) is skipped by
the scan, nothing is collected, so nothing is erased and the buffer holds `80` after the
feed: it is not empty and its first byte is no leader. -/
theorem skipped_byte_stays_in_buffer :
    emit [] [0x80] = ([], [0x80]) ∧ leadLen 0x80 = none ∧
    feedAll [] [[0x80], [0x80, 0xE2]] = ([], [0x80, 0x80, 0xE2]) := by
  decide

/-- C14, amended: for arbitrary bytes and any buffer, after a feed in which the scan
collected at least one character the buffer is what lies behind the scanned part, and it is
empty or the first bytes of one unfinished multi-byte character (a 2-, 3- or 4-byte leader
and fewer bytes than it announces, at most 3 bytes); after a feed in which the scan
collected nothing the buffer is the old buffer followed by the fragment, skipped bytes
included.  When the fragments fed from an empty buffer are the beginning of a well-formed
UTF-8 text, the buffer is empty or an unfinished multi-byte character after the feeds. -/
theorem pending_buffer_after_feed :
    (∀ cached piece : List Nat, (scan (cached ++ piece)).2 ≠ [] →
      (emit cached piece).2 = (cached ++ piece).drop (scan (cached ++ piece)).1 ∧
      ((emit cached piece).2 = [] ∨ IncompleteChar (emit cached piece).2) ∧
      (emit cached piece).2.length ≤ 3) ∧
    (∀ cached piece : List Nat, (scan (cached ++ piece)).2 = [] →
      (emit cached piece).2 = cached ++ piece) ∧
    (∀ (frags : List (List Nat)) (rest : List Nat), validUTF8 (frags.flatten ++ rest) = true →
      ((feedAll [] frags).2 = [] ∨ IncompleteChar (feedAll [] frags).2) ∧
      (feedAll [] frags).2.length ≤ 3) := by
  refine ⟨?_, ?_, ?_⟩
  · intro cached piece h
    have hs := scan_spec _ (cached ++ piece) (le_refl _)
    have he : (emit cached piece).2 = (cached ++ piece).drop (scan (cached ++ piece)).1 := by
      simp [emit, h]
    rw [he]
    exact ⟨rfl, pend_incomplete _ hs.2.2, pend_length _ hs.2.2⟩
  · intro cached piece h
    simp [emit, h]
  · intro frags rest hv
    have hc : Chars ([] ++ frags.flatten ++ rest) := by
      simpa using validUTF8_chars _ hv
    have hp := feedAll_pend frags [] rest (Or.inl rfl) hc
    exact ⟨pend_incomplete _ hp, pend_length _ hp⟩

/-- The hypotheses of the amended C14 hold: a feed that collects `A` and keeps `E2 82`, a
feed that collects nothing, and the beginning `A E2 82` of the text `A`, euro sign. -/
theorem pending_buffer_after_feed_witness :
    (scan ([0xE2] ++ [0x82, 0xAC, 0x41, 0xE2, 0x82])).2 ≠ [] ∧
    (emit [0xE2] [0x82, 0xAC, 0x41, 0xE2, 0x82]).2 = [0xE2, 0x82] ∧
    (scan ([0x80] ++ [0xE2])).2 = [] ∧
    (emit [0x80] [0xE2]).2 = [0x80] ++ [0xE2] ∧
    validUTF8 ([[0x41, 0xE2], [0x82]].flatten ++ [0xAC]) = true ∧
    (feedAll [] [[0x41, 0xE2], [0x82]]).2.length ≤ 3 :=
  ⟨by decide,
   ((pending_buffer_after_feed.1 [0xE2] [0x82, 0xAC, 0x41, 0xE2, 0x82] (by decide)).1).trans
      (by decide),
   by decide,
   pending_buffer_after_feed.2.1 [0x80] [0xE2] (by decide),
   by decide,
   (pending_buffer_after_feed.2.2 [[0x41, 0xE2], [0x82]] [0xAC] (by decide)).2⟩

/-! ## Emitted chunks are made of whole characters -/

theorem validFrom_zero_cons (lo hi b : Nat) (rest : List Nat) :
    validFrom 0 lo hi (b :: rest) =
      match leadInfo b with
      | some (k, l, h) => validFrom k l h rest
      | none => false := by
  rw [validFrom]
  unfold leadInfo
  split_ifs <;> rfl

theorem validFrom_zero_irrel (lo hi lo2 hi2 : Nat) (z : List Nat) :
    validFrom 0 lo hi z = validFrom 0 lo2 hi2 z := by
  cases z with
  | nil => simp [validFrom]
  | cons b rest => rw [validFrom_zero_cons, validFrom_zero_cons]

theorem leadInfo_spec (b k l h : Nat) (hi : leadInfo b = some (k, l, h)) :
    leadLen b = some (k + 1) ∧ 0 < l ∧ (k = 0 ∨ 0x80 ≤ b) := by
  unfold leadInfo at hi
  split_ifs at hi with h1 h2 h3 h4 h5 h6 h7 h8 <;>
    simp only [Option.some.injEq, Prod.mk.injEq] at hi <;>
    obtain ⟨rfl, rfl, rfl⟩ := hi
  · exact ⟨leadLen_ascii b h1, by norm_num, Or.inl rfl⟩
  · exact ⟨leadLen_two b h2.1 h2.2, by norm_num, Or.inr (by omega)⟩
  · exact ⟨leadLen_three b (by omega) (by omega), by norm_num, Or.inr (by omega)⟩
  · exact ⟨leadLen_three b (by omega) (by omega), by norm_num, Or.inr (by omega)⟩
  · exact ⟨leadLen_three b (by omega) (by omega), by norm_num, Or.inr (by omega)⟩
  · exact ⟨leadLen_four b (by omega) (by omega), by norm_num, Or.inr (by omega)⟩
  · exact ⟨leadLen_four b (by omega) (by omega), by norm_num, Or.inr (by omega)⟩
  · exact ⟨leadLen_four b (by omega) (by omega), by norm_num, Or.inr (by omega)⟩

/-- After the continuation bytes of a character the validator is back at a character
start. -/
theorem validFrom_append : ∀ (t : List Nat) (k lo hi : Nat) (z : List Nat), t.length = k →
    validFrom k lo hi (t ++ z) = (validFrom k lo hi t && validFrom 0 0x80 0xBF z) := by
  intro t
  induction t with
  | nil =>
    intro k lo hi z hk
    simp only [List.length_nil] at hk
    subst hk
    rw [List.nil_append, validFrom_zero_irrel lo hi 0x80 0xBF z]
    simp [validFrom]
  | cons c t ih =>
    intro k lo hi z hk
    simp only [List.length_cons] at hk
    subst hk
    rw [List.cons_append, validFrom, validFrom]
    split_ifs
    · exact ih _ _ _ z rfl
    · rfl

/-- Continuation bytes are not zero. -/
theorem validFrom_tail_pos : ∀ (t : List Nat) (k lo hi : Nat), t.length = k → 0 < lo →
    validFrom k lo hi t = true → ∀ x ∈ t, 0 < x := by
  intro t
  induction t with
  | nil => intro k lo hi _ _ _ x hx; simp at hx
  | cons c t ih =>
    intro k lo hi hk hlo hv x hx
    simp only [List.length_cons] at hk
    subst hk
    rw [validFrom] at hv
    split_ifs at hv with hr
    rcases List.mem_cons.mp hx with h | h
    · subst h; omega
    · exact ih _ _ _ rfl (by norm_num) hv x h

/-- A well-formed text that begins with whole characters of the scan: these characters
and what follows them are both well-formed. -/
theorem validUTF8_split (e : List Nat) (he : Chars e) :
    ∀ r : List Nat, validUTF8 (e ++ r) = true → validUTF8 e = true ∧ validUTF8 r = true := by
  induction he with
  | nil => intro r hv; exact ⟨rfl, by simpa using hv⟩
  | cons b t rest hl _ ih =>
    intro r hv
    have hre : (b :: (t ++ rest)) ++ r = b :: (t ++ (rest ++ r)) := by simp
    unfold validUTF8 at hv ⊢
    rw [hre, validFrom_zero_cons] at hv
    rw [validFrom_zero_cons]
    cases hi : leadInfo b with
    | none => rw [hi] at hv; simp at hv
    | some info =>
      obtain ⟨k, l, h⟩ := info
      rw [hi] at hv
      simp only [] at hv ⊢
      have hk : t.length = k := by
        have := (leadInfo_spec b k l h hi).1
        rw [hl] at this
        simp at this; exact this
      rw [validFrom_append t k l h _ hk, Bool.and_eq_true] at hv
      have hrest := ih r hv.2
      refine ⟨?_, hrest.2⟩
      rw [validFrom_append t k l h _ hk, Bool.and_eq_true]
      exact ⟨hv.1, hrest.1⟩

/-- Cutting a well-formed text at its first zero byte leaves a well-formed text: a zero
byte is a character of its own. -/
theorem validFrom_c_str : ∀ (e : List Nat) (need lo hi : Nat), 0 < lo →
    validFrom need lo hi e = true → validFrom need lo hi (c_str e) = true := by
  intro e
  induction e with
  | nil => intro need lo hi _ hv; exact hv
  | cons b rest ih =>
    intro need lo hi hlo hv
    by_cases hb : b = 0
    · subst hb
      have hc : c_str (0 :: rest) = [] := by simp [c_str]
      rw [hc]
      cases need with
      | zero => simp [validFrom]
      | succ n =>
        rw [validFrom] at hv
        split_ifs at hv with hr
        omega
    · have hc : c_str (b :: rest) = b :: c_str rest := by
        simp [c_str, List.takeWhile_cons, hb]
      rw [hc]
      cases need with
      | zero =>
        rw [validFrom_zero_cons] at hv ⊢
        cases hi : leadInfo b with
        | none => rw [hi] at hv; simp at hv
        | some info =>
          obtain ⟨k, l, h⟩ := info
          rw [hi] at hv
          simp only [] at hv ⊢
          exact ih k l h (leadInfo_spec b k l h hi).2.1 hv
      | succ n =>
        rw [validFrom] at hv ⊢
        split_ifs at hv ⊢ with hr
        exact ih n _ _ (by norm_num) hv

/-- The bytes of one well-formed multi-byte character are not zero. -/
theorem multibyte_no_zero (b : Nat) (t : List Nat) (hv : validUTF8 (b :: t) = true)
    (hl : leadLen b = some (t.length + 1)) (ht : t ≠ []) : 0 ∉ b :: t := by
  unfold validUTF8 at hv
  rw [validFrom_zero_cons] at hv
  cases hi : leadInfo b with
  | none => rw [hi] at hv; simp at hv
  | some info =>
    obtain ⟨k, l, h⟩ := info
    rw [hi] at hv
    simp only [] at hv
    have hs := leadInfo_spec b k l h hi
    have hk : t.length = k := by
      have := hs.1
      rw [hl] at this
      simp at this; exact this
    have htl : 0 < t.length := List.length_pos.mpr ht
    intro hmem
    rcases List.mem_cons.mp hmem with h0 | h0
    · rcases hs.2.2 with h1 | h1 <;> omega
    · have := validFrom_tail_pos t k l h hk hs.2.1 hv 0 h0
      omega

theorem chunkList_valid : ∀ (frags : List (List Nat)) (cached : List Nat),
    validUTF8 (cached ++ frags.flatten) = true →
      ∀ chunk ∈ chunkList cached frags, validUTF8 chunk = true := by
  intro frags
  induction frags with
  | nil => intro cached _ chunk hc; simp [chunkList] at hc
  | cons f fs ih =>
    intro cached hv chunk hc
    have hassoc : cached ++ (f :: fs).flatten = (cached ++ f) ++ fs.flatten := by simp
    rw [hassoc] at hv
    obtain ⟨e, p, hep, he, hp, _⟩ :=
      chars_split _ (validUTF8_chars _ hv) (cached ++ f) fs.flatten rfl
    rw [hep, List.append_assoc] at hv
    have hsplit := validUTF8_split e he _ hv
    simp only [chunkList, emit_chars_pend cached f e p hep he hp, List.mem_cons] at hc
    rcases hc with h | h
    · rw [h]
      exact validFrom_c_str e 0 0x80 0xBF (by norm_num) hsplit.1
    · exact ih p hsplit.2 chunk h

/-- C13: when a well-formed UTF-8 text is fed in any cutting from an empty buffer, every
chunk returned is itself well-formed UTF-8, that is, a concatenation of whole characters.
In particular, when the buffer is empty and the fragment `p` is a non-empty proper
beginning of one multi-byte character `c = p ++ q`, the chunk returned is empty and the
buffer holds `p`; feeding the remaining bytes `q` then returns exactly `c` and empties the
buffer. -/
theorem no_character_is_split :
    (∀ (text : List Nat) (frags : List (List Nat)), validUTF8 text = true →
      frags.flatten = text → ∀ chunk ∈ chunkList [] frags, validUTF8 chunk = true) ∧
    (∀ c p q : List Nat, validUTF8 c = true → leadLen (c.headD 0) = some c.length →
      c = p ++ q → p ≠ [] → q ≠ [] → emit [] p = ([], p) ∧ emit p q = (c, [])) := by
  constructor
  · intro text frags hv hcut chunk hc
    exact chunkList_valid frags [] (by simpa [hcut] using hv) chunk hc
  · intro c p q hv hl hc hp hq
    cases p with
    | nil => exact absurd rfl hp
    | cons b t1 =>
      subst hc
      simp only [List.cons_append, List.headD_cons, List.length_cons, List.length_append] at hl
      have hpend : Pend (b :: t1) := by
        have : 0 < q.length := List.length_pos.mpr hq
        exact Or.inr ⟨b, t1, _, rfl, hl, by simp; omega⟩
      have hl2 : leadLen b = some ((t1 ++ q).length + 1) := by
        rw [hl, List.length_append]
      have hchar : Chars (b :: ((t1 ++ q) ++ [])) := Chars.cons b (t1 ++ q) [] hl2 Chars.nil
      rw [List.append_nil] at hchar
      have hz : 0 ∉ b :: (t1 ++ q) :=
        multibyte_no_zero b (t1 ++ q) hv hl2 (by simp [hq])
      constructor
      · have := emit_chars_pend [] (b :: t1) [] (b :: t1) rfl Chars.nil hpend
        simpa [c_str] using this
      · have := emit_chars_pend (b :: t1) q (b :: (t1 ++ q)) [] (by simp) hchar (Or.inl rfl)
        rw [this, c_str_of_no_zero _ hz]
        rfl

/-- The hypotheses of C13 hold for the text `A`, euro sign, U+0000, `B` cut inside the euro
sign, and for the euro sign `E2 82 AC` fed as `E2` and then `82 AC`. -/
theorem no_character_is_split_witness :
    validUTF8 [0x41, 0xE2, 0x82, 0xAC, 0x00, 0x42] = true ∧
    chunkList [] [[0x41, 0xE2], [0x82, 0xAC, 0x00, 0x42]] = [[0x41], [0xE2, 0x82, 0xAC]] ∧
    validUTF8 [0xE2, 0x82, 0xAC] = true ∧
    (emit [] [0xE2] = ([], [0xE2]) ∧ emit [0xE2] [0x82, 0xAC] = ([0xE2, 0x82, 0xAC], [])) :=
  ⟨by decide, by decide,
   no_character_is_split.1 [0x41, 0xE2, 0x82, 0xAC, 0x00, 0x42]
     [[0x41, 0xE2], [0x82, 0xAC, 0x00, 0x42]] (by decide) (by decide) [0xE2, 0x82, 0xAC]
     (by decide),
   no_character_is_split.2 [0xE2, 0x82, 0xAC] [0xE2] [0x82, 0xAC] (by decide) (by decide)
     (by decide) (by decide) (by decide)⟩

/-! ## No byte is duplicated or moved -/

theorem seg_sublist (x e : List Nat) (h : Seg x e) : e.Sublist x := by
  induction h with
  | nil => exact List.Sublist.refl _
  | skip b rest e _ _ ih => exact ih.cons b
  | char b t rest e _ _ ih =>
    exact (List.Sublist.append (List.Sublist.refl t) ih).cons₂ b

theorem seg_kept_append (x e : List Nat) (h : Seg x e) (y o : List Nat) (hk : Kept y o) :
    Kept (x ++ y) (e ++ o) := by
  induction h with
  | nil => exact hk
  | skip b rest e hl _ ih => exact Kept.skip b _ _ hl ih
  | char b t rest e hl _ ih =>
    have h1 : (b :: (t ++ rest)) ++ y = b :: (t ++ (rest ++ y)) := by simp
    have h2 : (b :: (t ++ e)) ++ o = b :: (t ++ (e ++ o)) := by simp
    rw [h1, h2]
    exact Kept.char b t _ _ hl ih

theorem seg_kept_hold (x e : List Nat) (h : Seg x e) (y o : List Nat) (hk : Kept y o) :
    Kept (x ++ y) (x ++ o) := by
  induction h with
  | nil => exact hk
  | skip b rest e hl _ ih => exact Kept.hold b _ _ hl ih
  | char b t rest e hl _ ih =>
    have h1 : (b :: (t ++ rest)) ++ y = b :: (t ++ (rest ++ y)) := by simp
    have h2 : (b :: (t ++ rest)) ++ o = b :: (t ++ (rest ++ o)) := by simp
    rw [h1, h2]
    exact Kept.char b t _ _ hl ih

/-- Every buffer is kept whole by `Kept`. -/
theorem kept_refl (x : List Nat) : Kept x x := by
  have hs := scan_spec _ x (le_refl _)
  have := seg_kept_hold _ _ hs.2.1 _ _ (Kept.pend _ hs.2.2)
  rwa [List.take_append_drop] at this

/-- Every byte that `Kept` lets go matches no leader pattern. -/
theorem kept_length (x o : List Nat) (h : Kept x o) :
    x.length ≤ o.length + (x.filter (fun b => (leadLen b).isNone)).length := by
  induction h with
  | pend p _ => omega
  | skip b rest o hl _ ih =>
    simp only [List.length_cons, List.filter_cons, hl, Option.isNone_none, if_true]
    omega
  | hold b rest o hl _ ih =>
    simp only [List.length_cons, List.filter_cons, hl, Option.isNone_none, if_true]
    omega
  | char b t rest o hl _ ih =>
    have hf : (rest.filter (fun b => (leadLen b).isNone)).length
        ≤ ((b :: (t ++ rest)).filter (fun b => (leadLen b).isNone)).length := by
      apply List.Sublist.length_le
      apply List.Sublist.filter
      exact (List.sublist_append_right t rest).cons b
    simp only [List.length_cons, List.length_append] at ih ⊢
    omega

theorem kept_sublist (x o : List Nat) (h : Kept x o) : o.Sublist x := by
  induction h with
  | pend p _ => exact List.Sublist.refl _
  | skip b rest o _ _ ih => exact ih.cons b
  | hold b rest o _ _ ih => exact ih.cons₂ b
  | char b t rest o _ _ ih =>
    exact (List.Sublist.append (List.Sublist.refl t) ih).cons₂ b

theorem feedAll_sublist : ∀ (frags : List (List Nat)) (cached : List Nat),
    ((feedAll cached frags).1 ++ (feedAll cached frags).2).Sublist (cached ++ frags.flatten) := by
  intro frags
  induction frags with
  | nil => intro cached; simp [feedAll]
  | cons f fs ih =>
    intro cached
    have hassoc : cached ++ (f :: fs).flatten = (cached ++ f) ++ fs.flatten := by simp
    rw [hassoc]
    have hs := scan_spec _ (cached ++ f) (le_refl _)
    by_cases he : (scan (cached ++ f)).2 = []
    · have hem : emit cached f = ([], cached ++ f) := by simp [emit, he]
      simp only [feedAll, hem, List.nil_append]
      exact ih (cached ++ f)
    · have hem : emit cached f
          = (c_str (scan (cached ++ f)).2, (cached ++ f).drop (scan (cached ++ f)).1) := by
        simp [emit, he]
      simp only [feedAll, hem, List.append_assoc]
      have h1 : (c_str (scan (cached ++ f)).2).Sublist ((cached ++ f).take (scan (cached ++ f)).1) :=
        (List.takeWhile_sublist _).trans (seg_sublist _ _ hs.2.1)
      have h2 := ih ((cached ++ f).drop (scan (cached ++ f)).1)
      have h3 := List.Sublist.append h1 h2
      rw [← List.append_assoc ((cached ++ f).take _), List.take_append_drop] at h3
      simpa [List.append_assoc] using h3

theorem feedAll_kept : ∀ (frags : List (List Nat)) (cached : List Nat),
    0 ∉ cached ++ frags.flatten →
      Kept (cached ++ frags.flatten) ((feedAll cached frags).1 ++ (feedAll cached frags).2) := by
  intro frags
  induction frags with
  | nil => intro cached _; simpa [feedAll] using kept_refl cached
  | cons f fs ih =>
    intro cached h0
    have hassoc : cached ++ (f :: fs).flatten = (cached ++ f) ++ fs.flatten := by simp
    rw [hassoc] at h0 ⊢
    have hs := scan_spec _ (cached ++ f) (le_refl _)
    by_cases he : (scan (cached ++ f)).2 = []
    · have hem : emit cached f = ([], cached ++ f) := by simp [emit, he]
      simp only [feedAll, hem, List.nil_append]
      exact ih (cached ++ f) h0
    · have hem : emit cached f
          = (c_str (scan (cached ++ f)).2, (cached ++ f).drop (scan (cached ++ f)).1) := by
        simp [emit, he]
      have hsplit : (cached ++ f) ++ fs.flatten
          = (cached ++ f).take (scan (cached ++ f)).1
            ++ ((cached ++ f).drop (scan (cached ++ f)).1 ++ fs.flatten) := by
        rw [← List.append_assoc, List.take_append_drop]
      have h0e : 0 ∉ (scan (cached ++ f)).2 := by
        intro hm
        apply h0
        have := (seg_sublist _ _ hs.2.1).subset hm
        exact List.mem_append_left _ (List.mem_of_mem_take this)
      have h0r : 0 ∉ (cached ++ f).drop (scan (cached ++ f)).1 ++ fs.flatten := by
        intro hm
        apply h0
        rw [hsplit]
        exact List.mem_append_right _ hm
      simp only [feedAll, hem, c_str_of_no_zero _ h0e, List.append_assoc]
      have := seg_kept_append _ _ hs.2.1 _ _ (ih _ h0r)
      rw [← hsplit] at this
      simpa [List.append_assoc] using this

/-- C19, as stated, fails: the fragment `41 00 42` is collected whole by the scan, but the
string returned ends at the zero byte: the chunk is `41`, the buffer is erased, and the
bytes `00` and `42` are dropped although both match the one-byte leader pattern. -/
theorem zero_byte_drops_leader_bytes :
    feedAll [] [[0x41, 0x00, 0x42]] = ([0x41], []) ∧
    leadLen 0x00 = some 1 ∧ leadLen 0x42 = some 1 ∧
    ¬ Kept [[0x41, 0x00, 0x42]].flatten
        ((feedAll [] [[0x41, 0x00, 0x42]]).1 ++ (feedAll [] [[0x41, 0x00, 0x42]]).2) := by
  refine ⟨by decide, by decide, by decide, ?_⟩
  intro h
  have := kept_length _ _ h
  revert this
  decide

/-- C19, amended: for every sequence of arbitrary byte fragments fed from an empty buffer,
the chunks returned so far followed by the buffer are a subsequence of the bytes fed so far
(nothing is duplicated or moved); and when none of the bytes fed is zero, the only bytes
dropped are bytes that match no leader pattern and stand where a character starts. -/
theorem decoder_keeps_bytes_in_order (frags : List (List Nat)) :
    ((feedAll [] frags).1 ++ (feedAll [] frags).2).Sublist frags.flatten ∧
    (0 ∉ frags.flatten →
      Kept frags.flatten ((feedAll [] frags).1 ++ (feedAll [] frags).2)) := by
  constructor
  · simpa using feedAll_sublist frags []
  · intro h0
    simpa using feedAll_kept frags [] (by simpa using h0)

/-- The hypothesis of the amended C19 holds for malformed fragments without a zero byte:
`80` is dropped, `C3 A9` and `41` are returned, `E2 82` waits in the buffer. -/
theorem decoder_keeps_bytes_in_order_witness :
    0 ∉ [[0x80, 0xC3], [0xA9, 0xBF, 0x41, 0xE2], [0x82]].flatten ∧
    feedAll [] [[0x80, 0xC3], [0xA9, 0xBF, 0x41, 0xE2], [0x82]]
      = ([0xC3, 0xA9, 0x41], [0xE2, 0x82]) ∧
    Kept [[0x80, 0xC3], [0xA9, 0xBF, 0x41, 0xE2], [0x82]].flatten
      ((feedAll [] [[0x80, 0xC3], [0xA9, 0xBF, 0x41, 0xE2], [0x82]]).1 ++
        (feedAll [] [[0x80, 0xC3], [0xA9, 0xBF, 0x41, 0xE2], [0x82]]).2) :=
  ⟨by decide, by decide,
   (decoder_keeps_bytes_in_order [[0x80, 0xC3], [0xA9, 0xBF, 0x41, 0xE2], [0x82]]).2
     (by decide)⟩

/-! ## Generation and end of turn -/

/-- C18, as stated, fails: when `llama_token_to_piece` returns a negative count the call
returns `nullptr`, but the token has been decoded and `n_past` counted before: it is 4 after
the call and was 3 before. -/
theorem null_return_after_counted_token :
    (run (fresh 2048) [Op.submit_prompt [1, 2, 3] true]).n_past = 3 ∧
    (continueInference (run (fresh 2048) [Op.submit_prompt [1, 2, 3] true]) 9 false true
      none).1 = none ∧
    (continueInference (run (fresh 2048) [Op.submit_prompt [1, 2, 3] true]) 9 false true
      none).2.n_past = 4 ∧
    (continueInference (run (fresh 2048) [Op.submit_prompt [1, 2, 3] true]) 9 false true
      none).2.mem = [0, 1, 2, 3] := by
  decide

/-- C18, amended: `continueInference` increases `n_past` by exactly 1 exactly when the
decode of the sampled token has succeeded.  That is so whenever it returns a chunk (possibly
empty), and also when it returns `nullptr` because `llama_token_to_piece` failed after the
decode; when it returns `nullptr` for any other reason (no context, window full,
end-of-generation token, failed decode) `n_past` is unchanged. -/
theorem continueInference_n_past (s : Session) (t : Int) (e d : Bool)
    (p : Option (List Nat)) :
    (∀ chunk, (continueInference s t e d p).1 = some chunk →
      (continueInference s t e d p).2.n_past = s.n_past + 1) ∧
    ((continueInference s t e d p).1 = none → p ≠ none →
      (continueInference s t e d p).2.n_past = s.n_past) ∧
    ((continueInference s t e d p).1 = none → p = none →
      (continueInference s t e d p).2.n_past =
        if s.ctx = true ∧ toU32 s.n_past < toU32 s.n_ctx ∧ e = false ∧ d = true
          then s.n_past + 1 else s.n_past) := by
  simp only [continueInference]
  cases hc : s.ctx <;> cases e <;> cases d <;> cases p <;>
    by_cases hf : toU32 s.n_past ≥ toU32 s.n_ctx <;>
    simp [hf] <;> omega

/-- The hypotheses of the amended C18 hold after a prompt of three tokens: for a token with
the piece `A`, for an end-of-generation token, and for a failed conversion. -/
theorem continueInference_n_past_witness :
    (continueInference (run (fresh 2048) [Op.submit_prompt [1, 2, 3] true]) 9 false true
      (some [0x41])).1 = some [0x41] ∧
    (continueInference (run (fresh 2048) [Op.submit_prompt [1, 2, 3] true]) 9 false true
      (some [0x41])).2.n_past
      = (run (fresh 2048) [Op.submit_prompt [1, 2, 3] true]).n_past + 1 ∧
    (continueInference (run (fresh 2048) [Op.submit_prompt [1, 2, 3] true]) 2 true true
      (some [0x41])).1 = none ∧
    (continueInference (run (fresh 2048) [Op.submit_prompt [1, 2, 3] true]) 2 true true
      (some [0x41])).2.n_past
      = (run (fresh 2048) [Op.submit_prompt [1, 2, 3] true]).n_past ∧
    (continueInference (run (fresh 2048) [Op.submit_prompt [1, 2, 3] true]) 9 false true
      none).1 = none :=
  ⟨by decide,
   (continueInference_n_past (run (fresh 2048) [Op.submit_prompt [1, 2, 3] true]) 9 false true
      (some [0x41])).1 [0x41] (by decide),
   by decide,
   (continueInference_n_past (run (fresh 2048) [Op.submit_prompt [1, 2, 3] true]) 2 true true
      (some [0x41])).2.1 (by decide) (by decide),
   by decide⟩

/-- C11: on a loaded context with `n_past` in the range of `int`, when the sampled token is
an end-of-generation token or `n_past >= n_ctx` at the call, `continueInference` returns
`nullptr`, decodes nothing (memory and batch are as before) and leaves `n_past`, `g_n_keep`
and `cached_token_str` unchanged; a `finalizeTurn` that follows, with a decode that
succeeds, puts exactly one token, the end-of-sequence token without sampling flag, at
position `n_past` and increases `n_past` by exactly 1. -/
theorem end_of_generation_then_finalize (s : Session) (t eos : Int) (e d : Bool)
    (p : Option (List Nat)) (hc : s.ctx = true) (hr : s.n_past < 2147483648)
    (h : e = true ∨ (s.n_ctx : Int) ≤ s.n_past) :
    (continueInference s t e d p).1 = none ∧
    (continueInference s t e d p).2.mem = s.mem ∧
    (continueInference s t e d p).2.batch = s.batch ∧
    (continueInference s t e d p).2.n_past = s.n_past ∧
    (continueInference s t e d p).2.g_n_keep = s.g_n_keep ∧
    (continueInference s t e d p).2.cached_token_str = s.cached_token_str ∧
    (finalizeTurn (continueInference s t e d p).2 eos true).batch
      = [{ token := eos, pos := s.n_past, n_seq_id := 1, logits := 0 }] ∧
    (finalizeTurn (continueInference s t e d p).2 eos true).mem = s.mem ++ [s.n_past] ∧
    (finalizeTurn (continueInference s t e d p).2 eos true).n_past = s.n_past + 1 ∧
    (finalizeTurn (continueInference s t e d p).2 eos true).g_n_keep = s.g_n_keep := by
  by_cases hf : toU32 s.n_past ≥ toU32 s.n_ctx
  · simp [continueInference, finalizeTurn, llama_decode, hc, hf]
  · have he : e = true := by
      rcases h with h | h
      · exact h
      · exfalso
        apply hf
        unfold toU32
        omega
    simp [continueInference, finalizeTurn, llama_decode, hc, hf, he]

/-- The hypotheses of C11 hold after a prompt of three tokens when the first token sampled
is an end-of-generation token. -/
theorem end_of_generation_then_finalize_witness :
    (run (fresh 2048) [Op.submit_prompt [1, 2, 3] true]).ctx = true ∧
    (run (fresh 2048) [Op.submit_prompt [1, 2, 3] true]).n_past < 2147483648 ∧
    (continueInference (run (fresh 2048) [Op.submit_prompt [1, 2, 3] true]) 2 true true
      (some [0x41])).1 = none ∧
    (finalizeTurn (continueInference (run (fresh 2048) [Op.submit_prompt [1, 2, 3] true])
      2 true true (some [0x41])).2 2 true).n_past
      = (run (fresh 2048) [Op.submit_prompt [1, 2, 3] true]).n_past + 1 :=
  ⟨by decide, by decide,
   (end_of_generation_then_finalize (run (fresh 2048) [Op.submit_prompt [1, 2, 3] true])
      2 2 true true (some [0x41]) (by decide) (by decide) (Or.inl rfl)).1,
   (end_of_generation_then_finalize (run (fresh 2048) [Op.submit_prompt [1, 2, 3] true])
      2 2 true true (some [0x41]) (by decide) (by decide) (Or.inl rfl)).2.2.2.2.2.2.2.2.1⟩

/-- C12: after a prompt of three tokens, a `finalizeTurn` whose decode fails leaves the
memory at the three prompt positions and still sets `n_past` to 4, the same value as when
the decode succeeds; the function returns nothing to the caller. -/
theorem finalizeTurn_counts_failed_decode :
    (run (fresh 2048) [Op.submit_prompt [1, 2, 3] true]).n_past = 3 ∧
    (finalizeTurn (run (fresh 2048) [Op.submit_prompt [1, 2, 3] true]) 2 false).mem
      = [0, 1, 2] ∧
    (finalizeTurn (run (fresh 2048) [Op.submit_prompt [1, 2, 3] true]) 2 false).n_past = 4 ∧
    (finalizeTurn (run (fresh 2048) [Op.submit_prompt [1, 2, 3] true]) 2 true).n_past = 4 := by
  decide

/-! ## The window is never empty again after a first prompt -/

theorem length_fillBatch (n_past : Int) (toks : List Int) :
    (fillBatch n_past toks).length = toks.length := by
  simp [fillBatch]

theorem length_markLast (batch : List BatchEntry) : (markLast batch).length = batch.length := by
  unfold markLast
  split <;> simp [List.length_modify]

theorem startInference_success_n_past (s : Session) (toks : List Int) (ok : Bool)
    (hs : (startInference s toks ok).1 = true) :
    (startInference s toks ok).2.n_past
      = (prune (initKeep s toks.length) toks.length).n_past + (toks.length : Int) := by
  simp only [startInference] at hs ⊢
  split_ifs at hs ⊢
  simp_all [length_markLast, length_fillBatch]

theorem startInference_ctx_of_success (s : Session) (toks : List Int) (ok : Bool)
    (hs : (startInference s toks ok).1 = true) : s.ctx = true := by
  cases hc : s.ctx with
  | true => rfl
  | false => simp [startInference, hc] at hs

theorem prune_n_past_lower (s : Session) (n : Int) (hk : 0 ≤ s.g_n_keep) :
    (1 ≤ s.n_past → 1 ≤ (prune s n).n_past) ∧ (0 ≤ s.n_past → 0 ≤ (prune s n).n_past) := by
  rw [prune_n_past]
  split
  · rw [tdiv_four]
    split <;> constructor <;> intro h <;> omega
  · exact ⟨id, id⟩

theorem continueInference_n_past_cases (s : Session) (t : Int) (e d : Bool)
    (p : Option (List Nat)) :
    (continueInference s t e d p).2.n_past = s.n_past ∨
      (continueInference s t e d p).2.n_past = s.n_past + 1 := by
  simp only [continueInference]
  split_ifs <;> try exact Or.inl rfl
  cases p <;> exact Or.inr rfl

theorem finalizeTurn_n_past_cases (s : Session) (t : Int) (d : Bool) :
    (finalizeTurn s t d).n_past = s.n_past ∨ (finalizeTurn s t d).n_past = s.n_past + 1 := by
  simp only [finalizeTurn]
  split_ifs
  · exact Or.inl rfl
  · exact Or.inr rfl

theorem resetContext_n_past_cases (s : Session) (m : Bool) :
    (resetContext s m).n_past = s.n_past ∨
      (s.g_n_keep ≠ 0 ∧ (resetContext s m).n_past = s.g_n_keep) := by
  simp only [resetContext]
  split_ifs with h1 h2 h3
  · exact Or.inl rfl
  · exact Or.inl rfl
  · exact Or.inl rfl
  · exact Or.inr ⟨h2, rfl⟩

theorem startInference_n_past_lower (s : Session) (toks : List Int) (ok : Bool)
    (hk : 0 ≤ s.g_n_keep) :
    (1 ≤ s.n_past → 1 ≤ (startInference s toks ok).2.n_past) ∧
    (0 ≤ s.n_past → 0 ≤ (startInference s toks ok).2.n_past) := by
  cases hc : s.ctx with
  | false => simp [startInference, hc]
  | true =>
    have hk2 : 0 ≤ (initKeep s toks.length).g_n_keep := by
      rw [initKeep_g_n_keep]; split <;> omega
    have hp := prune_n_past_lower (initKeep s toks.length) toks.length hk2
    rw [initKeep_n_past] at hp
    cases hr : (startInference s toks ok).1 with
    | false =>
      rw [startInference_fail_n_past s toks ok hc hr]
      exact hp
    | true =>
      rw [startInference_success_n_past s toks ok hr]
      constructor <;> intro h
      · have := hp.1 h; omega
      · have := hp.2 h; omega

/-- A call other than `loadKVCache` keeps the counters non-negative. -/
theorem step_nonneg (s : Session) (op : Op) (hop : op.notLoad = true)
    (h0 : 0 ≤ s.n_past) (hk : 0 ≤ s.g_n_keep) :
    0 ≤ (step s op).n_past ∧ 0 ≤ (step s op).g_n_keep := by
  cases op with
  | submit_prompt toks ok =>
    refine ⟨(startInference_n_past_lower s toks ok hk).2 h0, ?_⟩
    show 0 ≤ (startInference s toks ok).2.g_n_keep
    rw [startInference_g_n_keep]; split <;> omega
  | generate_next t e d p =>
    refine ⟨?_, ?_⟩
    · show 0 ≤ (continueInference s t e d p).2.n_past
      rcases continueInference_n_past_cases s t e d p with h | h <;> omega
    · show 0 ≤ (continueInference s t e d p).2.g_n_keep
      rw [continueInference_g_n_keep]; exact hk
  | finalize_turn t d =>
    refine ⟨?_, ?_⟩
    · show 0 ≤ (finalizeTurn s t d).n_past
      rcases finalizeTurn_n_past_cases s t d with h | h <;> omega
    · show 0 ≤ (finalizeTurn s t d).g_n_keep
      rw [finalizeTurn_g_n_keep]; exact hk
  | soft_reset m =>
    refine ⟨?_, ?_⟩
    · show 0 ≤ (resetContext s m).n_past
      rcases resetContext_n_past_cases s m with h | h <;> omega
    · show 0 ≤ (resetContext s m).g_n_keep
      rw [resetContext_g_n_keep]; exact hk
  | load f b r => simp [Op.notLoad] at hop

/-- On a window that is not empty, a call other than `loadKVCache` leaves the window
non-empty and the anchor as it is. -/
theorem step_pos (s : Session) (op : Op) (hop : op.notLoad = true)
    (h1 : 1 ≤ s.n_past) (hk : 0 ≤ s.g_n_keep) :
    1 ≤ (step s op).n_past ∧ (step s op).g_n_keep = s.g_n_keep := by
  have hne : s.n_past ≠ 0 := by omega
  cases op with
  | submit_prompt toks ok =>
    refine ⟨(startInference_n_past_lower s toks ok hk).1 h1, ?_⟩
    show (startInference s toks ok).2.g_n_keep = s.g_n_keep
    rw [startInference_g_n_keep]; simp [hne]
  | generate_next t e d p =>
    refine ⟨?_, continueInference_g_n_keep s t e d p⟩
    show 1 ≤ (continueInference s t e d p).2.n_past
    rcases continueInference_n_past_cases s t e d p with h | h <;> omega
  | finalize_turn t d =>
    refine ⟨?_, finalizeTurn_g_n_keep s t d⟩
    show 1 ≤ (finalizeTurn s t d).n_past
    rcases finalizeTurn_n_past_cases s t d with h | h <;> omega
  | soft_reset m =>
    refine ⟨?_, resetContext_g_n_keep s m⟩
    show 1 ≤ (resetContext s m).n_past
    rcases resetContext_n_past_cases s m with h | h <;> omega
  | load f b r => simp [Op.notLoad] at hop

theorem run_nonneg : ∀ (ops : List Op) (s : Session), ops.all Op.notLoad = true →
    0 ≤ s.n_past → 0 ≤ s.g_n_keep → 0 ≤ (run s ops).n_past ∧ 0 ≤ (run s ops).g_n_keep := by
  intro ops
  induction ops with
  | nil => intro s _ h0 hk; exact ⟨h0, hk⟩
  | cons op ops ih =>
    intro s hall h0 hk
    simp only [List.all_cons, Bool.and_eq_true] at hall
    have hs := step_nonneg s op hall.1 h0 hk
    exact ih (step s op) hall.2 hs.1 hs.2

theorem run_pos : ∀ (ops : List Op) (s : Session), ops.all Op.notLoad = true →
    1 ≤ s.n_past → 0 ≤ s.g_n_keep →
      1 ≤ (run s ops).n_past ∧ (run s ops).g_n_keep = s.g_n_keep := by
  intro ops
  induction ops with
  | nil => intro s _ h1 _; exact ⟨h1, rfl⟩
  | cons op ops ih =>
    intro s hall h1 hk
    simp only [List.all_cons, Bool.and_eq_true] at hall
    have hs := step_pos s op hall.1 h1 hk
    have := ih (step s op) hall.2 hs.1 (by rw [hs.2]; exact hk)
    exact ⟨this.1, this.2.trans hs.2⟩

/-- C17: in a session that started fresh and saw no `loadKVCache`, once a `startInference`
with at least one token has returned `JNI_TRUE`, every continuation by `startInference`,
`continueInference`, `finalizeTurn` and `resetContext` calls, with any prompts and any
answers of the backend, keeps `n_past >= 1` and leaves `g_n_keep` at the value it had after
that call. -/
theorem anchor_stable_after_successful_prompt (n_ctx : Nat) (before later : List Op)
    (toks : List Int) (ok : Bool)
    (hb : before.all Op.notLoad = true) (hl : later.all Op.notLoad = true)
    (hn : 1 ≤ toks.length)
    (hs : (startInference (run (fresh n_ctx) before) toks ok).1 = true) :
    1 ≤ (run (startInference (run (fresh n_ctx) before) toks ok).2 later).n_past ∧
    (run (startInference (run (fresh n_ctx) before) toks ok).2 later).g_n_keep
      = (startInference (run (fresh n_ctx) before) toks ok).2.g_n_keep := by
  have h0 := run_nonneg before (fresh n_ctx) hb (le_refl _) (le_refl _)
  have hk : 0 ≤ (startInference (run (fresh n_ctx) before) toks ok).2.g_n_keep := by
    rw [startInference_g_n_keep]; split <;> omega
  have h1 : 1 ≤ (startInference (run (fresh n_ctx) before) toks ok).2.n_past := by
    rw [startInference_success_n_past _ toks ok hs]
    have hk2 : 0 ≤ (initKeep (run (fresh n_ctx) before) toks.length).g_n_keep := by
      rw [initKeep_g_n_keep]; split <;> omega
    have := (prune_n_past_lower (initKeep (run (fresh n_ctx) before) toks.length)
      toks.length hk2).2 (by rw [initKeep_n_past]; exact h0.1)
    omega
  exact run_pos later _ hl h1 hk

/-- The hypotheses of C17 hold for a first prompt of three tokens followed by a generated
token, a failed prompt, a soft reset, a failed end of turn and a second prompt. -/
theorem anchor_stable_after_successful_prompt_witness :
    (startInference (run (fresh 2048) []) [1, 2, 3] true).1 = true ∧
    (run (startInference (run (fresh 2048) []) [1, 2, 3] true).2
      [Op.generate_next 9 false true (some [0x41]), Op.submit_prompt [4, 5] false,
       Op.soft_reset true, Op.finalize_turn 2 false, Op.submit_prompt [6] true]).g_n_keep
      = (startInference (run (fresh 2048) []) [1, 2, 3] true).2.g_n_keep ∧
    1 ≤ (run (startInference (run (fresh 2048) []) [1, 2, 3] true).2
      [Op.generate_next 9 false true (some [0x41]), Op.submit_prompt [4, 5] false,
       Op.soft_reset true, Op.finalize_turn 2 false, Op.submit_prompt [6] true]).n_past :=
  ⟨by decide,
   (anchor_stable_after_successful_prompt 2048 []
      [Op.generate_next 9 false true (some [0x41]), Op.submit_prompt [4, 5] false,
       Op.soft_reset true, Op.finalize_turn 2 false, Op.submit_prompt [6] true]
      [1, 2, 3] true (by decide) (by decide) (by decide) (by decide)).2,
   (anchor_stable_after_successful_prompt 2048 []
      [Op.generate_next 9 false true (some [0x41]), Op.submit_prompt [4, 5] false,
       Op.soft_reset true, Op.finalize_turn 2 false, Op.submit_prompt [6] true]
      [1, 2, 3] true (by decide) (by decide) (by decide) (by decide)).1⟩

/-! ## Counters and memory, and the prompt batch -/

/-- C15: no decode fails here.  A first prompt of 1921 tokens on the fresh window of 2048
positions is refused, and the pruning block has raised `n_past` to 480 while the memory
holds no position; a prompt of three tokens is then accepted and decoded at positions 480,
481 and 482, so the memory holds `{480, 481, 482}` and not `{0, ..., 482}`. -/
theorem counters_leave_memory_behind :
    (run (fresh 2048) [Op.submit_prompt (List.replicate 1921 0) true]).n_past = 480 ∧
    (run (fresh 2048) [Op.submit_prompt (List.replicate 1921 0) true]).mem = [] ∧
    (startInference (run (fresh 2048) [Op.submit_prompt (List.replicate 1921 0) true])
      [1, 2, 3] true).1 = true ∧
    (run (run (fresh 2048) [Op.submit_prompt (List.replicate 1921 0) true])
      [Op.submit_prompt [1, 2, 3] true]).n_past = 483 ∧
    (run (run (fresh 2048) [Op.submit_prompt (List.replicate 1921 0) true])
      [Op.submit_prompt [1, 2, 3] true]).mem = [480, 481, 482] := by
  have h : run (fresh 2048) [Op.submit_prompt (List.replicate 1921 0) true]
      = { fresh 2048 with n_past := 480, g_n_keep := 1921 } := by
    show (startInference (fresh 2048) (List.replicate 1921 0) true).2 = _
    rw [startInference_oversized_first_prompt _ _ (List.length_replicate _ _)]
  rw [h]
  decide

/-- The batch that `startInference` hands to `llama_decode` when the prompt passes the size
check of line 200. -/
theorem startInference_batch (s : Session) (toks : List Int) (ok : Bool) (hc : s.ctx = true)
    (hfit : ¬ toU32 ((prune (initKeep s toks.length) toks.length).n_past + toks.length)
          > toU32 ((s.n_ctx : Int) - 4)) :
    (startInference s toks ok).2.batch
      = markLast (fillBatch (prune (initKeep s toks.length) toks.length).n_past toks) := by
  simp only [startInference]
  rw [if_neg (by simp [hc]), prune_n_ctx, initKeep_n_ctx, if_neg hfit]
  cases ok <;> simp

/-- Layout of the batch of a prompt with at least one token: one entry per token, entry `i`
carries token `i` at position `n_past + i` for one sequence, and the sampling flag is set on
the last entry and on no other. -/
theorem prompt_batch_entries (n_past : Int) (toks : List Int) (i : Nat)
    (hi : i < toks.length) :
    (markLast (fillBatch n_past toks)).length = toks.length ∧
    (markLast (fillBatch n_past toks))[i]? =
      some { token := toks.getD i 0, pos := n_past + (i : Int), n_seq_id := 1,
             logits := if i + 1 = toks.length then 1 else 0 } := by
  refine ⟨by rw [length_markLast, length_fillBatch], ?_⟩
  have hfill : (fillBatch n_past toks)[i]? =
      some { token := toks.getD i 0, pos := n_past + (i : Int), n_seq_id := 1, logits := 0 } := by
    simp [fillBatch, List.getElem?_map, List.getElem?_range hi]
  unfold markLast
  split
  · rename_i h0
    rw [length_fillBatch] at h0
    omega
  · rename_i k hk
    rw [length_fillBatch] at hk
    rw [List.getElem?_modify, hfill]
    by_cases hik : k = i
    · have : i + 1 = toks.length := by omega
      simp [hik, this]
    · have : ¬ i + 1 = toks.length := by omega
      simp [hik, this]

/-- The indices written by a prompt that passes the size check lie inside the window when
the counters are not negative and the window has at least 4 positions. -/
theorem prompt_batch_fits (s : Session) (toks : List Int) (hn : 4 ≤ s.n_ctx)
    (hc : s.n_ctx < 4294967296)
    (h0 : 0 ≤ (prune (initKeep s toks.length) toks.length).n_past)
    (hr : (prune (initKeep s toks.length) toks.length).n_past + toks.length < 2147483648)
    (hfit : ¬ toU32 ((prune (initKeep s toks.length) toks.length).n_past + toks.length)
          > toU32 ((s.n_ctx : Int) - 4)) :
    (toks.length : Int) ≤ (s.n_ctx : Int) - 4 := by
  unfold toU32 at hfit
  omega

/-- C16: after a prompt of three tokens, an empty prompt (no token) passes the size check
of line 200; whatever the decode answers, the batch handed to `llama_decode` has no entry,
so no entry carries the sampling flag, and line 215 writes `batch.logits` at index
`0 - 1 = -1`, which is not in `[0, n_ctx)`. -/
theorem empty_prompt_writes_outside_the_batch :
    (run (fresh 2048) [Op.submit_prompt [1, 2, 3] true]).batch.length = 3 ∧
    ¬ (toU32 ((prune (initKeep (run (fresh 2048) [Op.submit_prompt [1, 2, 3] true]) 0) 0).n_past
          + 0)
        > toU32 (((run (fresh 2048) [Op.submit_prompt [1, 2, 3] true]).n_ctx : Int) - 4)) ∧
    (startInference (run (fresh 2048) [Op.submit_prompt [1, 2, 3] true]) [] false).2.batch
      = [] ∧
    (startInference (run (fresh 2048) [Op.submit_prompt [1, 2, 3] true]) [] true).2.batch
      = [] ∧
    lastLogitsIndex
      (fillBatch (run (fresh 2048) [Op.submit_prompt [1, 2, 3] true]).n_past []) = -1 ∧
    ¬ (0 ≤ lastLogitsIndex
      (fillBatch (run (fresh 2048) [Op.submit_prompt [1, 2, 3] true]).n_past [])) := by
  decide

/-- The batch of a prompt that passes the size check, on a loaded context with a window of
at least 4 positions, non-negative counters and no `int` overflow in the sum of line 200:
it has one entry per token; entry `i` carries token `i` at position `n_past + i` (`n_past`
as the pruning block left it) for one sequence, and its sampling flag is 1 when it is the
last entry and 0 otherwise; the prompt has at most `n_ctx - 4` tokens, and when it has at
least one the index written by line 215 lies in `[0, n_ctx)`. -/
theorem prompt_batch_layout (s : Session) (toks : List Int) (ok : Bool)
    (hc : s.ctx = true) (hn : 4 ≤ s.n_ctx) (hc32 : s.n_ctx < 4294967296)
    (h0 : 0 ≤ s.n_past) (hk : 0 ≤ s.g_n_keep)
    (hr : (prune (initKeep s toks.length) toks.length).n_past + toks.length < 2147483648)
    (hfit : ¬ toU32 ((prune (initKeep s toks.length) toks.length).n_past + toks.length)
          > toU32 ((s.n_ctx : Int) - 4)) :
    (startInference s toks ok).2.batch.length = toks.length ∧
    (∀ i, i < toks.length →
      (startInference s toks ok).2.batch[i]? =
        some { token := toks.getD i 0,
               pos := (prune (initKeep s toks.length) toks.length).n_past + (i : Int),
               n_seq_id := 1,
               logits := if i + 1 = toks.length then 1 else 0 }) ∧
    (toks.length : Int) ≤ (s.n_ctx : Int) - 4 ∧
    (1 ≤ toks.length →
      0 ≤ lastLogitsIndex (fillBatch (prune (initKeep s toks.length) toks.length).n_past toks) ∧
      lastLogitsIndex (fillBatch (prune (initKeep s toks.length) toks.length).n_past toks)
        < (s.n_ctx : Int)) := by
  have hb := startInference_batch s toks ok hc hfit
  have hk2 : 0 ≤ (initKeep s toks.length).g_n_keep := by
    rw [initKeep_g_n_keep]; split <;> omega
  have hp : 0 ≤ (prune (initKeep s toks.length) toks.length).n_past :=
    (prune_n_past_lower (initKeep s toks.length) toks.length hk2).2
      (by rw [initKeep_n_past]; exact h0)
  have hfits := prompt_batch_fits s toks hn hc32 hp hr hfit
  refine ⟨?_, ?_, hfits, ?_⟩
  · rw [hb, length_markLast, length_fillBatch]
  · intro i hi
    rw [hb]
    exact (prompt_batch_entries _ toks i hi).2
  · intro h1
    unfold lastLogitsIndex
    rw [length_fillBatch]
    omega

/-- The batch of a prompt of two tokens after a prompt of three tokens on a window of 2048
positions. -/
theorem prompt_batch_layout_example :
    (run (fresh 2048) [Op.submit_prompt [1, 2, 3] true]).ctx = true ∧
    (startInference (run (fresh 2048) [Op.submit_prompt [1, 2, 3] true]) [7, 8] true).2.batch
      = [{ token := 7, pos := 3, n_seq_id := 1, logits := 0 },
         { token := 8, pos := 4, n_seq_id := 1, logits := 1 }] ∧
    (startInference (run (fresh 2048) [Op.submit_prompt [1, 2, 3] true]) [7, 8]
      true).2.batch.length = ([7, 8] : List Int).length :=
  ⟨by decide, by decide,
   (prompt_batch_layout (run (fresh 2048) [Op.submit_prompt [1, 2, 3] true]) [7, 8] true
      (by decide) (by decide) (by decide) (by decide) (by decide) (by decide)
      (by decide)).1⟩

/-! ## Counters mirror the memory when no prompt overfills an empty window -/

theorem positions_succ (n : Int) (h : 0 ≤ n) : positions (n + 1) = positions n ++ [n] := by
  unfold positions
  have : (n + 1).toNat = n.toNat + 1 := by omega
  rw [this, List.range_succ, List.map_append]
  simp [Int.toNat_of_nonneg h]

theorem mem_positions (n p : Int) : p ∈ positions n ↔ 0 ≤ p ∧ p < n := by
  unfold positions
  simp only [List.mem_map, List.mem_range]
  constructor
  · rintro ⟨a, ha, rfl⟩
    constructor
    · exact Int.ofNat_nonneg a
    · show (a : Int) < n
      omega
  · rintro ⟨h0, h1⟩
    refine ⟨p.toNat, by omega, ?_⟩
    show ((p.toNat : Nat) : Int) = p
    omega

/-- Removing `[k, k + r)` from `0 .. m - 1` and closing the gap. -/
theorem positions_prune (k r : Int) (hk : 0 ≤ k) (hr : 0 ≤ r) :
    ∀ m : Nat,
      ((positions m).filter (fun p => decide (p < k) || decide (k + r ≤ p))).map
          (fun p => if p < k then p else p - r)
        = positions (if (m : Int) ≤ k then (m : Int) else if (m : Int) ≤ k + r then k
            else (m : Int) - r) := by
  intro m
  induction m with
  | zero =>
    simp [positions, hk]
  | succ m ih =>
    have hm : ((m + 1 : Nat) : Int) = (m : Int) + 1 := by push_cast; rfl
    rw [hm, positions_succ _ (Int.ofNat_nonneg m), List.filter_append, List.map_append, ih]
    by_cases h1 : (m : Int) + 1 ≤ k
    · have h2 : (m : Int) ≤ k := by omega
      have h3 : (m : Int) < k := by omega
      simp only [h1, h2, if_true]
      rw [positions_succ _ (Int.ofNat_nonneg m)]
      simp [h3]
    · by_cases h2 : (m : Int) + 1 ≤ k + r
      · have h3 : ¬ (m : Int) < k := by omega
        have h4 : ¬ k + r ≤ (m : Int) := by omega
        simp only [h1, h2, if_true, if_false]
        by_cases h5 : (m : Int) ≤ k
        · have : (m : Int) = k := by omega
          simp [h5, h3, h4, this]
          omega
        · have h6 : (m : Int) ≤ k + r := by omega
          simp [h5, h6, h3, h4]
      · have h3 : ¬ (m : Int) < k := by omega
        have h4 : k + r ≤ (m : Int) := by omega
        simp only [h1, h2, if_false]
        by_cases h5 : (m : Int) ≤ k
        · have hr0 : r = 0 := by omega
          have hmk : (m : Int) = k := by omega
          simp only [h5, if_true, hr0, Int.sub_zero]
          rw [positions_succ _ (Int.ofNat_nonneg m)]
          simp [h3, hr0, hmk]
        · by_cases h6 : (m : Int) ≤ k + r
          · have : (m : Int) = k + r := by omega
            simp only [h5, h6, if_true, if_false]
            have e : (m : Int) + 1 - r = k + 1 := by omega
            rw [e, positions_succ _ hk]
            simp [h3, h4, this]
            omega
          · simp only [h5, h6, if_false]
            have e : (m : Int) + 1 - r = ((m : Int) - r) + 1 := by omega
            rw [e, positions_succ _ (by omega)]
            simp [h3, h4]

theorem positions_prune_int (n k r : Int) (hk : 0 ≤ k) (hr : 0 ≤ r) (hn : k + r ≤ n) :
    ((positions n).filter (fun p => decide (p < k) || decide (k + r ≤ p))).map
        (fun p => if p < k then p else p - r) = positions (n - r) := by
  have h0 : 0 ≤ n := by omega
  have hm := positions_prune k r hk hr n.toNat
  have hcast : ((n.toNat : Nat) : Int) = n := Int.toNat_of_nonneg h0
  rw [hcast] at hm
  rw [hm]
  by_cases h1 : n ≤ k
  · have : r = 0 := by omega
    simp [h1, this]
  · by_cases h2 : n ≤ k + r
    · have : n - r = k := by omega
      simp [h1, h2, this]
    · simp [h1, h2]

theorem positions_below (k : Int) (hk : 0 ≤ k) :
    ∀ m : Nat, (k ≤ (m : Int)) →
      (positions m).filter (fun p => decide (p < k)) = positions k := by
  intro m
  induction m with
  | zero =>
    intro h
    have : k = 0 := by
      have : ((0 : Nat) : Int) = 0 := rfl
      omega
    subst this
    rfl
  | succ m ih =>
    intro h
    have hm : ((m + 1 : Nat) : Int) = (m : Int) + 1 := by push_cast; rfl
    rw [hm] at h
    rw [hm, positions_succ _ (Int.ofNat_nonneg m), List.filter_append]
    by_cases h1 : k ≤ (m : Int)
    · have h2 : ¬ (m : Int) < k := by omega
      rw [ih h1]
      simp [h2]
    · have h2 : (m : Int) < k := by omega
      have h3 : k = (m : Int) + 1 := by omega
      have h4 : (positions m).filter (fun p => decide (p < k)) = positions m := by
        rw [List.filter_eq_self]
        intro p hp
        have := (mem_positions _ _).mp hp
        simp only [decide_eq_true_eq]
        omega
      rw [h4, h3, positions_succ _ (Int.ofNat_nonneg m)]
      simp

theorem positions_append_batch (n_past : Int) (h0 : 0 ≤ n_past) (toks : List Int) :
    positions n_past ++ (markLast (fillBatch n_past toks)).map BatchEntry.pos
      = positions (n_past + (toks.length : Int)) := by
  have hmark : (markLast (fillBatch n_past toks)).map BatchEntry.pos
      = (fillBatch n_past toks).map BatchEntry.pos := by
    apply List.ext_getElem?
    intro i
    unfold markLast
    split
    · rfl
    · rw [List.getElem?_map, List.getElem?_map, List.getElem?_modify]
      cases (fillBatch n_past toks)[i]? with
      | none => rfl
      | some e => simp only [Option.map_some', Option.some.injEq]; split <;> rfl
  have hfill : (fillBatch n_past toks).map BatchEntry.pos
      = (List.range toks.length).map (fun i : Nat => n_past + (i : Int)) := by
    unfold fillBatch
    rw [List.map_map]
    rfl
  rw [hmark, hfill]
  unfold positions
  have ht : (n_past + (toks.length : Int)).toNat = n_past.toNat + toks.length := by omega
  rw [ht, List.range_add, List.map_append, List.map_map]
  congr 1
  apply List.map_congr_left
  intro i _
  simp only [Function.comp]
  show n_past + (i : Int) = ((n_past.toNat + i : Nat) : Int)
  push_cast
  omega

theorem mirror_push (s t : Session) (h : Mirror s) (h1 : t.g_n_keep = s.g_n_keep)
    (h2 : t.n_past = s.n_past + 1) (h3 : t.mem = s.mem ++ [s.n_past]) : Mirror t := by
  obtain ⟨hk, hle, hmem⟩ := h
  refine ⟨by omega, by omega, ?_⟩
  rw [h3, h2, hmem, positions_succ s.n_past (by omega)]

theorem toI32_of_small (n : Nat) (h : n < 2147483648) : toI32 n = n := by
  unfold toI32
  omega

/-- The pruning block keeps the mirror property. -/
theorem prune_mirror (s : Session) (n : Int) (h : Mirror s) : Mirror (prune s n) := by
  obtain ⟨hk, hle, hmem⟩ := h
  by_cases ht : s.n_past + n > toI32 s.n_ctx - 128
  · obtain ⟨h1, h2, h3, h4, h5⟩ := prune_within_window s n hk hle ht
    refine ⟨by rw [h4]; exact hk, by rw [h4]; exact h3, ?_⟩
    rw [h5, hmem, h1]
    exact positions_prune_int s.n_past s.g_n_keep _ hk (by omega) (by omega)
  · have : prune s n = s := by unfold prune; rw [if_neg ht]
    rw [this]
    exact ⟨hk, hle, hmem⟩

/-- A call made under the conditions of `quietStep` keeps the mirror property. -/
theorem step_mirror (s : Session) (op : Op) (hctx : s.n_ctx < 2147483648)
    (hq : quietStep s op) (h : Mirror s) : Mirror (step s op) := by
  obtain ⟨hk, hle, hmem⟩ := h
  cases op with
  | submit_prompt toks ok =>
    obtain ⟨hok, hfirst⟩ := hq
    subst hok
    show Mirror (startInference s toks true).2
    cases hc : s.ctx with
    | false => simpa [startInference, hc] using ⟨hk, hle, hmem⟩
    | true =>
      by_cases h0 : s.n_past = 0
      · -- a first prompt: the anchor is set, nothing is pruned, the prompt fits
        have hsmall := hfirst h0
        have hi : initKeep s toks.length = { s with g_n_keep := toks.length } := by
          unfold initKeep; rw [if_pos h0]
        have hnt : ¬ (initKeep s toks.length).n_past + (toks.length : Int)
            > toI32 (initKeep s toks.length).n_ctx - 128 := by
          rw [initKeep_n_past, initKeep_n_ctx, toI32_of_small _ hctx, h0]
          omega
        have hp : prune (initKeep s toks.length) toks.length = initKeep s toks.length := by
          unfold prune; rw [if_neg hnt]
        have hfit : ¬ toU32 ((initKeep s toks.length).n_past + (toks.length : Int))
            > toU32 (((initKeep s toks.length).n_ctx : Int) - 4) := by
          rw [initKeep_n_past, initKeep_n_ctx, h0]
          unfold toU32
          omega
        simp only [startInference, hc, hp, hfit, if_false, Bool.true_eq_false]
        rw [hi]
        simp only [llama_decode, if_true, length_markLast, length_fillBatch, h0, hmem]
        refine ⟨?_, ?_, ?_⟩
        · show (0 : Int) ≤ (toks.length : Int)
          omega
        · show (toks.length : Int) ≤ 0 + (toks.length : Int)
          omega
        · exact positions_append_batch 0 (le_refl _) toks
      · have hi : initKeep s toks.length = s := by
          unfold initKeep; rw [if_neg h0]
        have hm := prune_mirror s toks.length ⟨hk, hle, hmem⟩
        obtain ⟨hk2, hle2, hmem2⟩ := hm
        simp only [startInference, hc, hi, Bool.true_eq_false, if_false]
        split
        · exact ⟨hk2, hle2, hmem2⟩
        · simp only [llama_decode, if_true, length_markLast, length_fillBatch, hmem2]
          refine ⟨hk2, ?_, ?_⟩
          · show (prune s toks.length).g_n_keep
              ≤ (prune s toks.length).n_past + (toks.length : Int)
            omega
          · exact positions_append_batch _ (by omega) toks
  | generate_next t e d p =>
    have hd : d = true := hq
    subst hd
    show Mirror (continueInference s t e true p).2
    simp only [continueInference]
    split_ifs <;> first
      | exact ⟨hk, hle, hmem⟩
      | (cases p <;> exact mirror_push s _ ⟨hk, hle, hmem⟩ rfl rfl rfl)
  | finalize_turn t d =>
    have hd : d = true := hq
    subst hd
    show Mirror (finalizeTurn s t true)
    simp only [finalizeTurn]
    split_ifs <;> first
      | exact ⟨hk, hle, hmem⟩
      | exact mirror_push s _ ⟨hk, hle, hmem⟩ rfl rfl rfl
  | soft_reset m =>
    have hm : m = true := hq
    subst hm
    show Mirror (resetContext s true)
    cases hc : s.ctx with
    | false => simpa [resetContext, hc] using ⟨hk, hle, hmem⟩
    | true =>
      by_cases h0 : s.g_n_keep = 0
      · rw [resetContext_no_anchor s true h0]
        exact ⟨hk, hle, hmem⟩
      · rw [resetContext_with_anchor s hc (by omega)]
        refine ⟨hk, le_refl _, ?_⟩
        show s.mem.filter (fun p => decide (p < s.g_n_keep)) = positions s.g_n_keep
        rw [hmem]
        have hn0 : 0 ≤ s.n_past := by omega
        have := positions_below s.g_n_keep hk s.n_past.toNat (by omega)
        rwa [Int.toNat_of_nonneg hn0] at this
  | load f b r => exact absurd hq (by simp [quietStep])

theorem step_n_ctx (s : Session) (op : Op) : (step s op).n_ctx = s.n_ctx := by
  cases op with
  | submit_prompt toks ok =>
    show (startInference s toks ok).2.n_ctx = s.n_ctx
    simp only [startInference]
    split_ifs <;> simp [prune_n_ctx, initKeep_n_ctx]
  | generate_next t e d p =>
    show (continueInference s t e d p).2.n_ctx = s.n_ctx
    simp only [continueInference]
    split_ifs <;> try rfl
    cases p <;> rfl
  | finalize_turn t d =>
    show (finalizeTurn s t d).n_ctx = s.n_ctx
    simp only [finalizeTurn]
    split_ifs <;> rfl
  | soft_reset m =>
    show (resetContext s m).n_ctx = s.n_ctx
    simp only [resetContext]
    split_ifs <;> rfl
  | load f b r =>
    show (loadKVCache s f b r).2.n_ctx = s.n_ctx
    simp only [loadKVCache]
    cases f with
    | none => split_ifs <;> rfl
    | some size => simp only []; split_ifs <;> rfl

/-- In a session that started fresh, as long as every decode succeeds and no prompt of more
than `n_ctx - 128` tokens is submitted to an empty window, the anchor lies within the window
and the memory holds exactly the positions `0, ..., n_past - 1`. -/
theorem run_mirror : ∀ (ops : List Op) (s : Session), s.n_ctx < 2147483648 →
    quietRun s ops → Mirror s → Mirror (run s ops) := by
  intro ops
  induction ops with
  | nil => intro s _ _ h; exact h
  | cons op ops ih =>
    intro s hctx hq h
    exact ih (step s op) (by rw [step_n_ctx]; exact hctx) hq.2 (step_mirror s op hctx hq.1 h)

theorem fresh_mirror (n_ctx : Nat) : Mirror (fresh n_ctx) :=
  ⟨le_refl _, le_refl _, rfl⟩

theorem pos_max_positions : ∀ m : Nat,
    llama_memory_seq_pos_max (positions m) = (m : Int) - 1 := by
  intro m
  induction m with
  | zero => rfl
  | succ m ih =>
    have hm : ((m + 1 : Nat) : Int) = (m : Int) + 1 := by push_cast; rfl
    rw [hm, positions_succ _ (Int.ofNat_nonneg m)]
    unfold llama_memory_seq_pos_max at ih ⊢
    rw [List.foldl_append, ih]
    simp only [List.foldl_cons, List.foldl_nil]
    omega

/-- Under the conditions of `quietRun` a save followed by a load that restores the saved
memory gives `n_past` back, and the window invariant between anchor and `n_past` holds. -/
theorem quiet_run_round_trip (n_ctx : Nat) (ops : List Op) (size : Nat)
    (hctx : n_ctx < 2147483648) (hq : quietRun (fresh n_ctx) ops) :
    Mirror (run (fresh n_ctx) ops) ∧
    saveKVCache (run (fresh n_ctx) ops) true true = (true, some (run (fresh n_ctx) ops).mem) ∧
    (loadKVCache (run (fresh n_ctx) ops) (some size) size (run (fresh n_ctx) ops).mem).2.n_past
      = (run (fresh n_ctx) ops).n_past := by
  have hm := run_mirror ops (fresh n_ctx) hctx hq (fresh_mirror n_ctx)
  have hc : ∀ (l : List Op) (s : Session), s.ctx = true → (run s l).ctx = true := by
    intro l
    induction l with
    | nil => intro s h; exact h
    | cons op l ih =>
      intro s h
      apply ih (step s op)
      cases op with
      | submit_prompt toks ok =>
        show (startInference s toks ok).2.ctx = true
        simp only [startInference]
        split_ifs <;> simp_all [prune, initKeep] <;> split_ifs <;> simp_all
      | generate_next t e d p =>
        show (continueInference s t e d p).2.ctx = true
        simp only [continueInference]
        split_ifs <;> try exact h
        cases p <;> exact h
      | finalize_turn t d =>
        show (finalizeTurn s t d).ctx = true
        simp only [finalizeTurn]
        split_ifs <;> exact h
      | soft_reset m =>
        show (resetContext s m).ctx = true
        simp only [resetContext]
        split_ifs <;> exact h
      | load f b r =>
        show (loadKVCache s f b r).2.ctx = true
        simp only [loadKVCache]
        cases f with
        | none => split_ifs <;> exact h
        | some size => simp only []; split_ifs <;> exact h
  have hctx2 := hc ops (fresh n_ctx) rfl
  obtain ⟨hk, hle, hmem⟩ := hm
  refine ⟨⟨hk, hle, hmem⟩, by simp [saveKVCache, hctx2], ?_⟩
  have h0 : 0 ≤ (run (fresh n_ctx) ops).n_past := by omega
  have hmax := pos_max_positions (run (fresh n_ctx) ops).n_past.toNat
  rw [Int.toNat_of_nonneg h0, ← hmem] at hmax
  simp only [loadKVCache, hctx2, Bool.true_eq_false, if_false, ne_eq, not_true_eq_false, hmax]
  split_ifs with h1
  · show (0 : Int) = (run (fresh n_ctx) ops).n_past
    omega
  · show (run (fresh n_ctx) ops).n_past - 1 + 1 = (run (fresh n_ctx) ops).n_past
    omega

/-- A turn made under the conditions of `quietRun`: a prompt, a generated token, the end of
the turn and a soft reset. -/
theorem quiet_run_example :
    quietRun (fresh 2048) [Op.submit_prompt [1, 2, 3] true,
      Op.generate_next 9 false true (some [0x41]), Op.finalize_turn 2 true,
      Op.soft_reset true] ∧
    (run (fresh 2048) [Op.submit_prompt [1, 2, 3] true,
      Op.generate_next 9 false true (some [0x41]), Op.finalize_turn 2 true,
      Op.soft_reset true]).mem = [0, 1, 2] :=
  ⟨⟨⟨rfl, fun _ => by decide⟩, rfl, rfl, rfl, trivial⟩, by decide⟩

end Priscilla
